import Mathlib

/-!
Verification development for the `futuristic` crate (stream and sink combinators).

The embedding models an asynchronous source (`futures::Stream`) as a schedule of
poll outcomes: the n-th poll of the underlying source returns either a value, a
not-ready-this-tick signal (with an immediate wake, as produced by the crate's
`yield_now`-based test sources), or end-of-stream.  All combinators of the crate
are polled by a single cooperative driver that re-polls on wake, so a run is a
sequence of `poll_next` calls on the combinator state.

Embedded components:
- `fusePoll` models `futures::stream::Fuse` (sticky end-of-stream flag);
- `zipLatestPoll` models `ZipLatest::poll_next` from `src/stream/zip_latest.rs`;
- `zipAllPoll` models `ZipLatestAll::poll_next` from `src/stream/zip_latest_all.rs`,
  with the fill phase (`join_all` of `StreamFuture`s, all unfinished elements
  polled each round) and the steady phase (a `FuturesUnordered` of indexed
  stream futures, modelled as a FIFO queue of woken entries: each `poll_next`
  of the set polls entries in queue order until one completes, moving polled
  not-ready entries to the back, and returns not-ready after polling every
  entry once, matching the set's fairness yield);
- `forkPollClose` models `Fork::poll_close` from `src/sink/fork.rs`.
-/

namespace Futuristic

/-- Outcome of one poll of an underlying source: a produced value, a
not-ready-this-tick signal, or end-of-stream. -/
inductive Tick (α : Type) where
  | ready (v : α)
  | pending
  | done
deriving DecidableEq, Repr

/-- A source is modelled by the schedule of its poll outcomes: the n-th poll of
the raw (unfused) source returns `M n`. -/
abbrev SourceModel (α : Type) := Nat → Tick α

/-- Schedule of the crate's `yield_on_none` test source: each list entry is one
poll outcome (`some v` produces `v`, `none` is not-ready with immediate wake),
and the source ends when the list is exhausted. -/
def ofList {α : Type} (l : List (Option α)) : SourceModel α := fun n =>
  match l[n]? with
  | some (some v) => Tick.ready v
  | some none => Tick.pending
  | none => Tick.done

/-- Schedule of `futures::stream::repeat v`: always ready with `v`. -/
def repeatSrc {α : Type} (v : α) : SourceModel α := fun _ => Tick.ready v

/-- The most recent value produced by a source within its first `c` polls. -/
def lastProduced {α : Type} (M : SourceModel α) : Nat → Option α
  | 0 => none
  | c + 1 =>
    match M c with
    | Tick.ready v => some v
    | _ => lastProduced M c

/-- State of a `futures::stream::Fuse` wrapper: how many times the underlying
source has been polled, and whether it has returned end-of-stream. -/
structure FuseState where
  cursor : Nat
  isDone : Bool
deriving DecidableEq, Repr

/-- Result of polling a fused source. -/
inductive FusePollRes (α : Type) where
  | item (v : α)
  | pend
  | finished
deriving DecidableEq, Repr

/-- One poll of a fused source: if the fuse is done it returns end-of-stream
without polling the underlying source; otherwise the underlying source is
polled once (consuming one schedule tick). -/
def fusePoll {α : Type} (M : SourceModel α) (f : FuseState) : FuseState × FusePollRes α :=
  if f.isDone then (f, FusePollRes.finished)
  else
    match M f.cursor with
    | Tick.ready v => (⟨f.cursor + 1, false⟩, FusePollRes.item v)
    | Tick.pending => (⟨f.cursor + 1, false⟩, FusePollRes.pend)
    | Tick.done => (⟨f.cursor + 1, true⟩, FusePollRes.finished)

/-- Per-source freshness state (`StreamState` in `zip_latest.rs`). -/
inductive StreamState (α : Type) where
  | nothing
  | new (v : α)
  | yielded (v : α)
deriving DecidableEq, Repr

/-- `StreamState::needs_poll`: a side is refreshable when it holds no
unconsumed value. -/
def StreamState.needsPoll {α : Type} : StreamState α → Bool
  | StreamState.nothing => true
  | StreamState.yielded _ => true
  | StreamState.new _ => false

/-- Whether the freshness state is `Nothing`. -/
def StreamState.isNothing {α : Type} : StreamState α → Bool
  | StreamState.nothing => true
  | _ => false

/-- The value currently held by a freshness state, if any. -/
def StreamState.val {α : Type} : StreamState α → Option α
  | StreamState.nothing => none
  | StreamState.new v => some v
  | StreamState.yielded v => some v

/-- Result of one `poll_next` call on a combinator: `ready (some x)` emits `x`,
`ready none` is end-of-stream, `pending` suspends. -/
inductive PollNext (γ : Type) where
  | ready (x : Option γ)
  | pending
deriving DecidableEq, Repr

/-- State of `ZipLatest` (`zip_latest.rs`): two fused sources and their
freshness states. -/
structure ZipLatestState (α β : Type) where
  aFuse : FuseState
  bFuse : FuseState
  state : StreamState α
  otherState : StreamState β
deriving DecidableEq, Repr

/-- Initial `ZipLatest` state: fresh fuses, both sides `Nothing`. -/
def ZipLatestState.init {α β : Type} : ZipLatestState α β :=
  ⟨⟨0, false⟩, ⟨0, false⟩, StreamState.nothing, StreamState.nothing⟩

/-- Step 1 of `ZipLatest::poll_next` for one side: if the freshness state is
refreshable, poll the fused source once; a produced value moves the state to
`New`, any other outcome leaves it unchanged. -/
def refreshSide {α : Type} (M : SourceModel α) (f : FuseState) (st : StreamState α) :
    FuseState × StreamState α :=
  if st.needsPoll then
    match fusePoll M f with
    | (f1, FusePollRes.item v) => (f1, StreamState.new v)
    | (f1, _) => (f1, st)
  else (f, st)

/-- Step 2 of `ZipLatest::poll_next`: the joint-state match, in source order:
emission patterns first, then the `Nothing`-and-ended terminations, then
both-ended, else pending. -/
def combinePhase {α β : Type} (aF bF : FuseState) (aS : StreamState α) (bS : StreamState β) :
    ZipLatestState α β × PollNext (α × β) :=
  match aS, bS with
  | StreamState.new a, StreamState.new b =>
      (⟨aF, bF, StreamState.yielded a, StreamState.yielded b⟩, PollNext.ready (some (a, b)))
  | StreamState.new a, StreamState.yielded b =>
      (⟨aF, bF, StreamState.yielded a, StreamState.yielded b⟩, PollNext.ready (some (a, b)))
  | StreamState.yielded a, StreamState.new b =>
      (⟨aF, bF, StreamState.yielded a, StreamState.yielded b⟩, PollNext.ready (some (a, b)))
  | aS1, bS1 =>
      if aS1.isNothing && aF.isDone then
        (⟨aF, bF, StreamState.nothing, StreamState.nothing⟩, PollNext.ready none)
      else if bS1.isNothing && bF.isDone then
        (⟨aF, bF, StreamState.nothing, StreamState.nothing⟩, PollNext.ready none)
      else if aF.isDone && bF.isDone then
        (⟨aF, bF, StreamState.nothing, StreamState.nothing⟩, PollNext.ready none)
      else
        (⟨aF, bF, aS1, bS1⟩, PollNext.pending)

/-- `ZipLatest::poll_next` (`zip_latest.rs`): refresh both sides, then run the
joint-state match. -/
def zipLatestPoll {α β : Type} (MA : SourceModel α) (MB : SourceModel β)
    (s : ZipLatestState α β) : ZipLatestState α β × PollNext (α × β) :=
  let a := refreshSide MA s.aFuse s.state
  let b := refreshSide MB s.bFuse s.otherState
  combinePhase a.1 b.1 a.2 b.2

/-- Drive `ZipLatest` with the cooperative driver: poll up to `fuel` times,
collecting emitted items; the boolean records whether end-of-stream was
reached. -/
def zipLatestRun {α β : Type} (MA : SourceModel α) (MB : SourceModel β) :
    Nat → ZipLatestState α β → List (α × β) × Bool
  | 0, _ => ([], false)
  | fuel + 1, s =>
    match zipLatestPoll MA MB s with
    | (s1, PollNext.ready (some x)) =>
        let r := zipLatestRun MA MB fuel s1
        (x :: r.1, r.2)
    | (_, PollNext.ready none) => ([], true)
    | (s1, PollNext.pending) => zipLatestRun MA MB fuel s1

/-- Scenario 1 source A: produces 0, not-ready, 1, not-ready, not-ready, 2, then ends. -/
def srcA : SourceModel Nat := ofList [some 0, none, some 1, none, none, some 2]

/-- Scenario 1 source B: produces not-ready, 10, 11, 12, not-ready, not-ready, 13, then ends. -/
def srcB : SourceModel Nat := ofList [none, some 10, some 11, some 12, none, none, some 13]

/-! ### N-ary combinator: `ZipLatestAll` (`zip_latest_all.rs`) -/

/-- Fill-phase state of one source inside `join_all`: how many times it has
been polled, and, once its `StreamFuture` completed, its first value
(`some none` when it ended without producing). -/
structure FillEntry (α : Type) where
  cursor : Nat
  result : Option (Option α)
deriving DecidableEq, Repr

/-- One `join_all` round for one source: completed entries are skipped,
unfinished ones are polled once. -/
def fillEntryStep {α : Type} (M : SourceModel α) (e : FillEntry α) : FillEntry α :=
  match e.result with
  | some _ => e
  | none =>
    match M e.cursor with
    | Tick.ready v => ⟨e.cursor + 1, some (some v)⟩
    | Tick.pending => ⟨e.cursor + 1, none⟩
    | Tick.done => ⟨e.cursor + 1, some none⟩

/-- One poll of the fill-phase `join_all`: every unfinished element future is
polled once. -/
def fillStep {α : Type} (Ms : List (SourceModel α)) (es : List (FillEntry α)) :
    List (FillEntry α) :=
  List.zipWith fillEntryStep Ms es

/-- The `try_fold` building the initial `items` vector and the pending set:
short-circuits to `none` when any source ended without a first value; `i` is
the running index (`items.len()` in the source). The pending-set entries pair
each source index with the source's poll count. -/
def collectFillAux {α : Type} (i : Nat) : List (FillEntry α) → Option (List α × List (Nat × Nat))
  | [] => some ([], [])
  | e :: es =>
    match e.result with
    | some (some v) =>
      match collectFillAux (i + 1) es with
      | some (items, q) => some (v :: items, (i, e.cursor) :: q)
      | none => none
    | _ => none

/-- The source at index `i` of the collection (out-of-range indices never
occur; they are mapped to an ended source). -/
def srcAt {α : Type} (Ms : List (SourceModel α)) (i : Nat) : SourceModel α := fun c =>
  match Ms[i]? with
  | some M => M c
  | none => Tick.done

/-- Result of one `poll_next` of the pending `FuturesUnordered` set. -/
inductive ScanRes (α : Type) where
  | found (i : Nat) (v : α) (tailEntry : Nat × Nat) (rest : List (Nat × Nat))
  | ended (rest : List (Nat × Nat))
  | pend (rest : List (Nat × Nat))
  | empty
deriving DecidableEq, Repr

/-- One `poll_next` of the pending set, modelled as a FIFO queue of woken
entries `(index, poll count)`: entries are polled in queue order until one
completes; an entry whose source is not ready is moved to the back (it is
woken immediately); when every entry was polled without a completion the set
is not ready; an empty set signals end. -/
def scanQueue {α : Type} (Ms : List (SourceModel α)) :
    List (Nat × Nat) → List (Nat × Nat) → ScanRes α
  | [], acc => if acc.isEmpty then ScanRes.empty else ScanRes.pend acc
  | (i, c) :: rest, acc =>
    match srcAt Ms i c with
    | Tick.ready v => ScanRes.found i v (i, c + 1) (rest ++ acc)
    | Tick.done => ScanRes.ended (rest ++ acc)
    | Tick.pending => scanQueue Ms rest (acc ++ [(i, c + 1)])

/-- The steady-state drain loop of `ZipLatestAll::poll_next`: drain every
currently-ready completion (overwriting `items[i]` and queuing the source's
next-value future in `yielded`), then either emit the snapshot, suspend, or
end. `fuel` is a structural bound on the iterations; every call supplies
`q.length + 1`, which is never exhausted since each completion removes an
entry from the queue. -/
def drainLoop {α : Type} (Ms : List (SourceModel α)) :
    Nat → List α → List (Nat × Nat) → List (Nat × Nat) →
    (List α × List (Nat × Nat)) × PollNext (List α)
  | 0, items, q, yielded => ((items, q ++ yielded), PollNext.pending)
  | fuel + 1, items, q, yielded =>
    match scanQueue Ms q [] with
    | ScanRes.found i v te rest => drainLoop Ms fuel (items.set i v) rest (yielded ++ [te])
    | ScanRes.ended rest => drainLoop Ms fuel items rest yielded
    | ScanRes.empty =>
      if yielded.isEmpty then ((items, yielded), PollNext.ready none)
      else ((items, yielded), PollNext.ready (some items))
    | ScanRes.pend rest =>
      if yielded.isEmpty then ((items, rest), PollNext.pending)
      else ((items, rest ++ yielded), PollNext.ready (some items))

/-- The two phases of `ZipLatestAll` (`Inner::Fill` / `Inner::Filled`). -/
inductive ZipAllState (α : Type) where
  | fill (es : List (FillEntry α))
  | filled (items : List α) (q : List (Nat × Nat))
deriving DecidableEq, Repr

/-- Initial `ZipLatestAll` state: fill phase, no source polled yet. -/
def initZipAll {α : Type} (Ms : List (SourceModel α)) : ZipAllState α :=
  ZipAllState.fill (Ms.map fun _ => ⟨0, none⟩)

/-- `ZipLatestAll::poll_next`: in the fill phase, poll `join_all`; once every
first-value future completed, build the `items` vector (poisoning to an empty
terminated state when a source ended without a value) and emit the initial
snapshot; in the filled phase, run the drain loop. -/
def zipAllPoll {α : Type} (Ms : List (SourceModel α)) :
    ZipAllState α → ZipAllState α × PollNext (List α)
  | ZipAllState.fill es =>
    let es1 := fillStep Ms es
    if es1.all fun e => e.result.isSome then
      match collectFillAux 0 es1 with
      | some (items, q) => (ZipAllState.filled items q, PollNext.ready (some items))
      | none => (ZipAllState.filled [] [], PollNext.ready none)
    else (ZipAllState.fill es1, PollNext.pending)
  | ZipAllState.filled items q =>
    let r := drainLoop Ms (q.length + 1) items q []
    (ZipAllState.filled r.1.1 r.1.2, r.2)

/-- Drive `ZipLatestAll` with the cooperative driver: poll up to `fuel` times,
collecting emitted snapshots; the boolean records whether end-of-stream was
reached. -/
def runZipAll {α : Type} (Ms : List (SourceModel α)) :
    Nat → ZipAllState α → List (List α) × Bool
  | 0, _ => ([], false)
  | fuel + 1, s =>
    match zipAllPoll Ms s with
    | (s1, PollNext.ready (some x)) =>
        let r := runZipAll Ms fuel s1
        (x :: r.1, r.2)
    | (_, PollNext.ready none) => ([], true)
    | (s1, PollNext.pending) => runZipAll Ms fuel s1

/-- The fill-phase state after `k` polls of `join_all`. -/
def fillStates {α : Type} (Ms : List (SourceModel α)) : Nat → List (FillEntry α)
  | 0 => Ms.map fun _ => ⟨0, none⟩
  | k + 1 => fillStep Ms (fillStates Ms k)

/-! ### Fork sink (`sink/fork.rs`) -/

/-- Outcome of one poll of a destination sink operation. -/
inductive SinkPollRes (ε : Type) where
  | ok
  | pend
  | err (e : ε)
deriving DecidableEq, Repr

/-- A destination sink is modelled by schedules of its `poll_ready` and
`poll_close` outcomes, keyed by how many times each has been polled.
`start_send` is modelled as always accepting (as the unbounded channel sinks
used with `Fork` do). -/
structure SinkModel (ε : Type) where
  readySched : Nat → SinkPollRes ε
  closeSched : Nat → SinkPollRes ε

/-- Mutable counters of a destination sink: poll counts and accepted items. -/
structure SinkState where
  readyCount : Nat
  closeCount : Nat
  sent : Nat
deriving DecidableEq, Repr

/-- Fresh destination-sink counters. -/
def SinkState.init : SinkState := ⟨0, 0, 0⟩

/-- State of `Fork`: the two per-side sticky close flags, the single-item
buffer, and the destination sinks. -/
structure ForkState (γ δ : Type) where
  leftClosed : Bool
  rightClosed : Bool
  buffer : Option (γ ⊕ δ)
  leftSink : SinkState
  rightSink : SinkState
deriving DecidableEq, Repr

/-- `Fork::poll_ready`: with an empty buffer, ready immediately; otherwise
poll the buffered side's destination for readiness and, once ready, hand the
buffered item off to it. -/
def forkPollReady {γ δ ε : Type} (LM RM : SinkModel ε) (s : ForkState γ δ) :
    ForkState γ δ × SinkPollRes ε :=
  match s.buffer with
  | none => (s, SinkPollRes.ok)
  | some (Sum.inl _) =>
    let s1 : ForkState γ δ :=
      { s with leftSink := { s.leftSink with readyCount := s.leftSink.readyCount + 1 } }
    match LM.readySched s.leftSink.readyCount with
    | SinkPollRes.pend => (s1, SinkPollRes.pend)
    | SinkPollRes.err e => (s1, SinkPollRes.err e)
    | SinkPollRes.ok =>
      ({ s1 with buffer := none,
                 leftSink := { s1.leftSink with sent := s1.leftSink.sent + 1 } },
       SinkPollRes.ok)
  | some (Sum.inr _) =>
    let s1 : ForkState γ δ :=
      { s with rightSink := { s.rightSink with readyCount := s.rightSink.readyCount + 1 } }
    match RM.readySched s.rightSink.readyCount with
    | SinkPollRes.pend => (s1, SinkPollRes.pend)
    | SinkPollRes.err e => (s1, SinkPollRes.err e)
    | SinkPollRes.ok =>
      ({ s1 with buffer := none,
                 rightSink := { s1.rightSink with sent := s1.rightSink.sent + 1 } },
       SinkPollRes.ok)

/-- `Fork::poll_close`: flush the buffer via `poll_ready`, then close each
side, skipping a side whose sticky flag already records a confirmed closure;
a side's flag is set exactly when its destination confirms; the call reports
closed only when both sides are confirmed, and propagates the left error
first. -/
def forkPollClose {γ δ ε : Type} (LM RM : SinkModel ε) (s : ForkState γ δ) :
    ForkState γ δ × SinkPollRes ε :=
  match forkPollReady LM RM s with
  | (s1, SinkPollRes.pend) => (s1, SinkPollRes.pend)
  | (s1, SinkPollRes.err e) => (s1, SinkPollRes.err e)
  | (s1, SinkPollRes.ok) =>
    let leftStep : ForkState γ δ × SinkPollRes ε :=
      if s1.leftClosed then (s1, SinkPollRes.ok)
      else
        let s2 : ForkState γ δ :=
          { s1 with leftSink := { s1.leftSink with closeCount := s1.leftSink.closeCount + 1 } }
        match LM.closeSched s1.leftSink.closeCount with
        | SinkPollRes.ok => ({ s2 with leftClosed := true }, SinkPollRes.ok)
        | r => (s2, r)
    let s2 := leftStep.1
    let rightStep : ForkState γ δ × SinkPollRes ε :=
      if s2.rightClosed then (s2, SinkPollRes.ok)
      else
        let s3 : ForkState γ δ :=
          { s2 with rightSink := { s2.rightSink with closeCount := s2.rightSink.closeCount + 1 } }
        match RM.closeSched s2.rightSink.closeCount with
        | SinkPollRes.ok => ({ s3 with rightClosed := true }, SinkPollRes.ok)
        | r => (s3, r)
    let s3 := rightStep.1
    match leftStep.2, rightStep.2 with
    | SinkPollRes.err e, _ => (s3, SinkPollRes.err e)
    | _, SinkPollRes.err e => (s3, SinkPollRes.err e)
    | SinkPollRes.ok, SinkPollRes.ok => (s3, SinkPollRes.ok)
    | _, _ => (s3, SinkPollRes.pend)

/-! ### Invariants used in the theorems -/

/-- Relation between a fuse and its source's schedule length when the source
is an `ofList` schedule: the cursor never passes the first end-of-stream
tick, and the sticky flag records having consumed it. -/
def FuseInv {α : Type} (l : List (Option α)) (f : FuseState) : Prop :=
  (f.isDone = false → f.cursor ≤ l.length) ∧ (f.isDone = true → f.cursor = l.length + 1)

/-- Per-side invariant of the pairwise combinator: the fuse is well-formed and
the freshness state holds exactly the most recent value the source produced. -/
def SideInv {α : Type} (l : List (Option α)) (f : FuseState) (st : StreamState α) : Prop :=
  FuseInv l f ∧ lastProduced (ofList l) f.cursor = st.val

/-- Joint invariant of `ZipLatest` over two `ofList` sources. -/
def ZLInv {α β : Type} (la : List (Option α)) (lb : List (Option β))
    (s : ZipLatestState α β) : Prop :=
  SideInv la s.aFuse s.state ∧ SideInv lb s.bFuse s.otherState

/-- Termination measure for one side of `ZipLatest`: remaining schedule room
plus one for an unconsumed `New` value. -/
def sideMeasure {α : Type} (l : List (Option α)) (f : FuseState) (st : StreamState α) : Nat :=
  2 * (l.length + 1 - f.cursor) + (if st.needsPoll then 0 else 1)

/-- Termination measure for `ZipLatest`: every non-terminating poll strictly
decreases it. -/
def zlMeasure {α β : Type} (la : List (Option α)) (lb : List (Option β))
    (s : ZipLatestState α β) : Nat :=
  sideMeasure la s.aFuse s.state + sideMeasure lb s.bFuse s.otherState

/-- The source indices of a pending-set queue. -/
def idxs (l : List (Nat × Nat)) : List Nat := l.map Prod.fst

/-- Invariant of the live entries of the N-ary pending set, relative to a
per-source poll-count assignment `cur`: indices are distinct, in range, and
each entry's recorded poll count agrees with `cur`. -/
def EntriesInv {α : Type} (items : List α) (cur : Nat → Nat) (l : List (Nat × Nat)) : Prop :=
  (idxs l).Nodup ∧ ∀ e ∈ l, e.1 < items.length ∧ cur e.1 = e.2

/-- Invariant of the N-ary `items` vector: every slot holds the most recent
value its source produced within its `cur` polls. -/
def ItemsInv {α : Type} (Ms : List (SourceModel α)) (items : List α) (cur : Nat → Nat) : Prop :=
  ∀ i, i < items.length → lastProduced (srcAt Ms i) (cur i) = items[i]?

/-- Steady-state invariant of `ZipLatestAll`. -/
def InvFilled {α : Type} (Ms : List (SourceModel α)) (items : List α)
    (q : List (Nat × Nat)) (cur : Nat → Nat) : Prop :=
  EntriesInv items cur q ∧ ItemsInv Ms items cur

/-! ## Helper lemmas -/

theorem combinePhase_fst_fuses {α β : Type} (aF bF : FuseState)
    (aS : StreamState α) (bS : StreamState β) :
    (combinePhase aF bF aS bS).1.aFuse = aF ∧ (combinePhase aF bF aS bS).1.bFuse = bF := by
  cases aS <;> cases bS <;>
    first
      | exact ⟨rfl, rfl⟩
      | (simp only [combinePhase]; split_ifs <;> exact ⟨rfl, rfl⟩)

theorem refreshSide_not_needed {α : Type} (M : SourceModel α) (f : FuseState)
    (st : StreamState α) (h : st.needsPoll = false) : refreshSide M f st = (f, st) := by
  simp [refreshSide, h]

theorem refreshSide_of_done {α : Type} (M : SourceModel α) (f : FuseState)
    (st : StreamState α) (h : f.isDone = true) : refreshSide M f st = (f, st) := by
  unfold refreshSide fusePoll
  rw [if_pos h]
  split <;> rfl

theorem combinePhase_ready_none_shape {α β : Type} {aF bF : FuseState}
    {aS : StreamState α} {bS : StreamState β} {s1 : ZipLatestState α β}
    (h : combinePhase aF bF aS bS = (s1, PollNext.ready none)) :
    s1 = ⟨aF, bF, StreamState.nothing, StreamState.nothing⟩ ∧
      (aF.isDone = true ∨ bF.isDone = true) := by
  cases aS <;> cases bS <;>
    simp only [combinePhase] at h <;>
    (try split_ifs at h with h1 h2 h3) <;>
    simp_all [StreamState.isNothing]

theorem combinePhase_nothing_adone {α β : Type} (aF bF : FuseState) (bS : StreamState β)
    (h : aF.isDone = true) :
    (combinePhase aF bF (StreamState.nothing : StreamState α) bS).2 = PollNext.ready none := by
  cases bS <;> simp [combinePhase, StreamState.isNothing, h]

theorem combinePhase_nothing_bdone {α β : Type} (aF bF : FuseState) (aS : StreamState α)
    (h : bF.isDone = true) :
    (combinePhase aF bF aS (StreamState.nothing : StreamState β)).2 = PollNext.ready none := by
  cases aS <;> simp [combinePhase, StreamState.isNothing, h]

theorem combinePhase_nothing_pending {α β : Type} (aF bF : FuseState) (bS : StreamState β)
    (ha : aF.isDone = false) (hb : ¬(bS.isNothing = true ∧ bF.isDone = true)) :
    combinePhase aF bF (StreamState.nothing : StreamState α) bS =
      (⟨aF, bF, StreamState.nothing, bS⟩, PollNext.pending) := by
  cases bS with
  | nothing =>
    have hbf : bF.isDone = false := by
      simp [StreamState.isNothing] at hb
      simp [hb]
    simp [combinePhase, StreamState.isNothing, ha, hbf]
  | new v => simp [combinePhase, StreamState.isNothing, ha]
  | yielded v => simp [combinePhase, StreamState.isNothing, ha]

theorem streamState_isNothing_eq {α : Type} {st : StreamState α}
    (h : st.isNothing = true) : st = StreamState.nothing := by
  cases st <;> simp_all [StreamState.isNothing]

theorem zip_latest_nothing_run {α β : Type} (MA : SourceModel α) (MB : SourceModel β)
    (n : Nat) (hdone : MA n = Tick.done) (hpend : ∀ m, m < n → MA m = Tick.pending) :
    ∀ fuel k (bF : FuseState) (bS : StreamState β), k ≤ n → n - k < fuel →
      zipLatestRun MA MB fuel ⟨⟨k, false⟩, bF, StreamState.nothing, bS⟩ = ([], true) := by
  intro fuel
  induction fuel with
  | zero => intro k bF bS hk hf; omega
  | succ fuel ih =>
    intro k bF bS hk hf
    rcases Nat.eq_or_lt_of_le hk with heq | hkn
    · subst heq
      have ha : refreshSide MA ⟨k, false⟩ StreamState.nothing =
          (⟨k + 1, true⟩, StreamState.nothing) := by
        simp [refreshSide, fusePoll, StreamState.needsPoll, hdone]
      have hpoll : zipLatestPoll MA MB ⟨⟨k, false⟩, bF, StreamState.nothing, bS⟩ =
          ((zipLatestPoll MA MB ⟨⟨k, false⟩, bF, StreamState.nothing, bS⟩).1,
            PollNext.ready none) := by
        have h2 : (zipLatestPoll MA MB ⟨⟨k, false⟩, bF, StreamState.nothing, bS⟩).2 =
            PollNext.ready none := by
          simp only [zipLatestPoll, ha]
          exact combinePhase_nothing_adone _ _ _ rfl
        rw [← h2]
      rw [zipLatestRun, hpoll]
    · have hMk := hpend k hkn
      have ha : refreshSide MA ⟨k, false⟩ StreamState.nothing =
          (⟨k + 1, false⟩, StreamState.nothing) := by
        simp [refreshSide, fusePoll, StreamState.needsPoll, hMk]
      by_cases hbd : ((refreshSide MB bF bS).2.isNothing = true ∧
          (refreshSide MB bF bS).1.isDone = true)
      · have hbn : (refreshSide MB bF bS).2 = StreamState.nothing :=
          streamState_isNothing_eq hbd.1
        have hpoll : zipLatestPoll MA MB ⟨⟨k, false⟩, bF, StreamState.nothing, bS⟩ =
            ((zipLatestPoll MA MB ⟨⟨k, false⟩, bF, StreamState.nothing, bS⟩).1,
              PollNext.ready none) := by
          have h2 : (zipLatestPoll MA MB ⟨⟨k, false⟩, bF, StreamState.nothing, bS⟩).2 =
              PollNext.ready none := by
            simp only [zipLatestPoll, ha, hbn]
            exact combinePhase_nothing_bdone _ _ _ hbd.2
          rw [← h2]
        rw [zipLatestRun, hpoll]
      · have hpoll : zipLatestPoll MA MB ⟨⟨k, false⟩, bF, StreamState.nothing, bS⟩ =
            (⟨⟨k + 1, false⟩, (refreshSide MB bF bS).1, StreamState.nothing,
                (refreshSide MB bF bS).2⟩, PollNext.pending) := by
          simp only [zipLatestPoll, ha]
          exact combinePhase_nothing_pending _ _ _ rfl hbd
        rw [zipLatestRun, hpoll]
        exact ih (k + 1) _ _ (by omega) (by omega)

/-! ## Claims -/

/-- C1: applied to the two Scenario 1 sources, the N-ary combinator
`zip_latest_all` produces exactly `[[0,10], [1,11], [1,12], [2,12], [2,13]]`,
the first snapshot being emitted when the fill phase completes, and then ends. -/
theorem zip_latest_all_scenario :
    runZipAll [srcA, srcB] 20 (initZipAll [srcA, srcB]) =
      ([[0, 10], [1, 11], [1, 12], [2, 12], [2, 13]], true) := by decide

/-- C2: applied to the two Scenario 1 sources, the pairwise combinator
`zip_latest` produces exactly `[(0,10), (0,11), (1,12), (2,13)]` and then ends. -/
theorem zip_latest_scenario :
    zipLatestRun srcA srcB 20 ZipLatestState.init =
      ([(0, 10), (0, 11), (1, 12), (2, 13)], true) := by decide

/-- C10: constructed from an empty collection of sources, the N-ary combinator
emits exactly one item (the empty snapshot) on its first poll and returns
end-of-stream on every subsequent poll: the terminated state maps to itself
with `Ready(None)`. -/
theorem zip_latest_all_empty_collection :
    (∀ α : Type,
      zipAllPoll ([] : List (SourceModel α)) (initZipAll []) =
          (ZipAllState.filled [] [], PollNext.ready (some [])) ∧
        zipAllPoll ([] : List (SourceModel α)) (ZipAllState.filled [] []) =
          (ZipAllState.filled [] [], PollNext.ready none)) ∧
    runZipAll ([] : List (SourceModel Nat)) 5 (initZipAll []) = ([[]], true) :=
  ⟨fun _ => ⟨rfl, rfl⟩, by decide⟩

/-- C7: a side whose freshness state is `New` is not sub-polled by
`ZipLatest::poll_next` (its fuse state is untouched), because `needs_poll`
holds exactly for `Nothing` and `Yielded`. -/
theorem zip_latest_new_not_subpolled {α β : Type} (MA : SourceModel α) (MB : SourceModel β)
    (s : ZipLatestState α β) :
    (s.state.needsPoll = false → (zipLatestPoll MA MB s).1.aFuse = s.aFuse) ∧
    (s.otherState.needsPoll = false → (zipLatestPoll MA MB s).1.bFuse = s.bFuse) ∧
    (∀ v : α, (StreamState.new v).needsPoll = false) ∧
    (∀ v : α, (StreamState.yielded v).needsPoll = true) ∧
    (StreamState.nothing : StreamState α).needsPoll = true := by
  refine ⟨?_, ?_, fun _ => rfl, fun _ => rfl, rfl⟩
  · intro h
    simp [zipLatestPoll, refreshSide_not_needed MA s.aFuse s.state h,
      combinePhase_fst_fuses]
  · intro h
    simp [zipLatestPoll, refreshSide_not_needed MB s.bFuse s.otherState h,
      combinePhase_fst_fuses]

theorem zip_latest_new_not_subpolled_witness :
    (zipLatestPoll (repeatSrc 0) (repeatSrc 0)
        (⟨⟨5, false⟩, ⟨6, false⟩, StreamState.new 1, StreamState.new 2⟩ :
          ZipLatestState Nat Nat)).1.aFuse = ⟨5, false⟩ ∧
    (zipLatestPoll (repeatSrc 0) (repeatSrc 0)
        (⟨⟨5, false⟩, ⟨6, false⟩, StreamState.new 1, StreamState.new 2⟩ :
          ZipLatestState Nat Nat)).1.bFuse = ⟨6, false⟩ :=
  ⟨(zip_latest_new_not_subpolled _ _ _).1 rfl,
   (zip_latest_new_not_subpolled _ _ _).2.1 rfl⟩

/-- C8 counterexample: the pairwise combinator has no fail-fast path. At a
concrete input, the poll that follows a `Ready(None)` termination is handled
silently: `poll_next` is total on the terminated state and simply returns
`Ready(None)` again, with no assertion or invariant-violation failure. -/
theorem zip_latest_poll_after_termination_counterexample :
    zipLatestPoll (ofList [some (1 : Nat)]) (ofList [some (2 : Nat)])
        ZipLatestState.init =
      (⟨⟨1, false⟩, ⟨1, false⟩, StreamState.yielded 1, StreamState.yielded 2⟩,
        PollNext.ready (some (1, 2))) ∧
    zipLatestPoll (ofList [some (1 : Nat)]) (ofList [some (2 : Nat)])
        ⟨⟨1, false⟩, ⟨1, false⟩, StreamState.yielded 1, StreamState.yielded 2⟩ =
      (⟨⟨2, true⟩, ⟨2, true⟩, StreamState.nothing, StreamState.nothing⟩,
        PollNext.ready none) ∧
    zipLatestPoll (ofList [some (1 : Nat)]) (ofList [some (2 : Nat)])
        ⟨⟨2, true⟩, ⟨2, true⟩, StreamState.nothing, StreamState.nothing⟩ =
      (⟨⟨2, true⟩, ⟨2, true⟩, StreamState.nothing, StreamState.nothing⟩,
        PollNext.ready none) := by
  exact ⟨by decide, by decide, by decide⟩

/-- C8 (amended): polling the pairwise combinator again after it returned
`Ready(None)` does not fail: every such poll returns `Ready(None)` again. -/
theorem zip_latest_poll_after_termination_ready_none {α β : Type}
    (MA : SourceModel α) (MB : SourceModel β) (s s1 : ZipLatestState α β)
    (h : zipLatestPoll MA MB s = (s1, PollNext.ready none)) :
    (zipLatestPoll MA MB s1).2 = PollNext.ready none := by
  have hshape :
      s1 = ⟨(refreshSide MA s.aFuse s.state).1, (refreshSide MB s.bFuse s.otherState).1,
          StreamState.nothing, StreamState.nothing⟩ ∧
        ((refreshSide MA s.aFuse s.state).1.isDone = true ∨
          (refreshSide MB s.bFuse s.otherState).1.isDone = true) := by
    have h2 : combinePhase (refreshSide MA s.aFuse s.state).1
        (refreshSide MB s.bFuse s.otherState).1 (refreshSide MA s.aFuse s.state).2
        (refreshSide MB s.bFuse s.otherState).2 = (s1, PollNext.ready none) := h
    exact combinePhase_ready_none_shape h2
  obtain ⟨hs1, hdone⟩ := hshape
  subst hs1
  cases hdone with
  | inl ha =>
    show (combinePhase _ _ _ _).2 = PollNext.ready none
    rw [refreshSide_of_done MA _ _ ha]
    exact combinePhase_nothing_adone _ _ _ ha
  | inr hb =>
    show (combinePhase _ _ _ _).2 = PollNext.ready none
    rw [refreshSide_of_done MB _ _ hb]
    exact combinePhase_nothing_bdone _ _ _ hb

/-- C5: if source A ends having never produced a value, `zip_latest(A, B)`
emits nothing for any B (including an infinite B): the poll that observes A's
end while A's freshness state is still `Nothing` returns `Ready(None)`
whatever side B is in, and the whole run from the initial state emits no item
and terminates. -/
theorem zip_latest_unproductive_source_poisons {α β : Type}
    (MA : SourceModel α) (MB : SourceModel β) (n : Nat)
    (hdone : MA n = Tick.done) (hpend : ∀ m, m < n → MA m = Tick.pending) :
    (∀ s : ZipLatestState α β, s.state = StreamState.nothing → s.aFuse = ⟨n, false⟩ →
      (zipLatestPoll MA MB s).2 = PollNext.ready none) ∧
    (∀ fuel, n < fuel → zipLatestRun MA MB fuel ZipLatestState.init = ([], true)) := by
  constructor
  · intro s h1 h2
    have ha : refreshSide MA s.aFuse s.state = (⟨n + 1, true⟩, StreamState.nothing) := by
      rw [h1, h2]
      simp [refreshSide, fusePoll, StreamState.needsPoll, hdone]
    simp only [zipLatestPoll, ha]
    exact combinePhase_nothing_adone _ _ _ rfl
  · intro fuel hfuel
    exact zip_latest_nothing_run MA MB n hdone hpend fuel 0 ⟨0, false⟩
      StreamState.nothing (Nat.zero_le n) (by omega)

theorem zip_latest_unproductive_source_poisons_witness :
    zipLatestRun (ofList ([] : List (Option Nat))) (repeatSrc (5 : Nat)) 1
      ZipLatestState.init = ([], true) :=
  (zip_latest_unproductive_source_poisons (ofList []) (repeatSrc 5) 0 rfl
    (fun m hm => absurd hm (Nat.not_lt_zero m))).2 1 (by decide)

/-- C9: `Fork::poll_close` (with no buffered item pending) confirms closure
per side with sticky flags: a side already confirmed is never polled for close
again and its flag stays set; a not-yet-confirmed side is polled on every
close call; and the call reports closed only when both sides are confirmed. -/
theorem fork_poll_close_per_side {γ δ ε : Type} (LM RM : SinkModel ε) (s : ForkState γ δ)
    (hb : s.buffer = none) :
    (s.leftClosed = true →
      (forkPollClose LM RM s).1.leftSink = s.leftSink ∧
        (forkPollClose LM RM s).1.leftClosed = true) ∧
    (s.rightClosed = true →
      (forkPollClose LM RM s).1.rightSink = s.rightSink ∧
        (forkPollClose LM RM s).1.rightClosed = true) ∧
    (s.leftClosed = false →
      (forkPollClose LM RM s).1.leftSink.closeCount = s.leftSink.closeCount + 1) ∧
    (s.rightClosed = false →
      (forkPollClose LM RM s).1.rightSink.closeCount = s.rightSink.closeCount + 1) ∧
    ((forkPollClose LM RM s).2 = SinkPollRes.ok →
      (forkPollClose LM RM s).1.leftClosed = true ∧
        (forkPollClose LM RM s).1.rightClosed = true) := by
  have hr : forkPollReady LM RM s = (s, SinkPollRes.ok) := by
    unfold forkPollReady
    rw [hb]
  rcases hL : s.leftClosed <;> rcases hR : s.rightClosed <;>
    rcases hLs : LM.closeSched s.leftSink.closeCount with _ | _ | eL <;>
    rcases hRs : RM.closeSched s.rightSink.closeCount with _ | _ | eR <;>
    simp [forkPollClose, hr, hL, hR, hLs, hRs]

theorem fork_poll_close_per_side_witness :
    ((forkPollClose (⟨fun _ => SinkPollRes.ok, fun _ => SinkPollRes.ok⟩ : SinkModel Nat)
        ⟨fun _ => SinkPollRes.ok, fun _ => SinkPollRes.pend⟩
        (⟨false, false, none, SinkState.init, SinkState.init⟩ :
          ForkState Nat Nat)).1.leftSink.closeCount = SinkState.init.closeCount + 1) ∧
    ((forkPollClose (⟨fun _ => SinkPollRes.ok, fun _ => SinkPollRes.ok⟩ : SinkModel Nat)
        ⟨fun _ => SinkPollRes.ok, fun _ => SinkPollRes.pend⟩
        (⟨false, false, none, SinkState.init, SinkState.init⟩ :
          ForkState Nat Nat)).1.rightSink.closeCount = SinkState.init.closeCount + 1) :=
  ⟨(fork_poll_close_per_side _ _ _ rfl).2.2.1 rfl,
   (fork_poll_close_per_side _ _ _ rfl).2.2.2.1 rfl⟩

theorem getElem?_some_lt {σ : Type} {l : List σ} {i : Nat} {a : σ}
    (h : l[i]? = some a) : i < l.length := by
  by_contra hc
  rw [List.getElem?_eq_none (by omega)] at h
  cases h

theorem fillEntryStep_frozen {α : Type} (M : SourceModel α) (e : FillEntry α) (x : Option α)
    (h : e.result = some x) : (fillEntryStep M e).result = some x := by
  simp [fillEntryStep, h]

theorem fillStates_length {α : Type} (Ms : List (SourceModel α)) :
    ∀ k, (fillStates Ms k).length = Ms.length
  | 0 => by simp [fillStates]
  | k + 1 => by
    have ih := fillStates_length Ms k
    simp [fillStates, fillStep, ih]

theorem fillStep_getElem {α : Type} :
    ∀ (Ms : List (SourceModel α)) (es : List (FillEntry α)) (i : Nat) (M : SourceModel α)
      (e : FillEntry α), Ms[i]? = some M → es[i]? = some e →
      (fillStep Ms es)[i]? = some (fillEntryStep M e) := by
  intro Ms
  induction Ms with
  | nil => intro es i M e hM _; simp at hM
  | cons M0 Ms ih =>
    intro es i M e hM he
    cases es with
    | nil => simp at he
    | cons e0 es =>
      cases i with
      | zero =>
        simp only [List.getElem?_cons_zero, Option.some.injEq] at hM he
        subst hM
        subst he
        simp [fillStep]
      | succ i =>
        simp only [List.getElem?_cons_succ] at hM he
        simpa [fillStep] using ih es i M e hM he

theorem result_frozen {α : Type} (Ms : List (SourceModel α)) (i : Nat) (x : Option α)
    (k : Nat) (e : FillEntry α) (he : (fillStates Ms k)[i]? = some e)
    (hr : e.result = some x) :
    ∀ j, k ≤ j → ∃ e1, (fillStates Ms j)[i]? = some e1 ∧ e1.result = some x := by
  intro j hkj
  induction j, hkj using Nat.le_induction with
  | base => exact ⟨e, he, hr⟩
  | succ j _ ih =>
    obtain ⟨e1, he1, hr1⟩ := ih
    have hi : i < Ms.length := by
      have h2 := getElem?_some_lt he1
      rwa [fillStates_length] at h2
    refine ⟨fillEntryStep Ms[i] e1, ?_, fillEntryStep_frozen _ _ _ hr1⟩
    exact fillStep_getElem Ms (fillStates Ms j) i Ms[i] e1 (List.getElem?_eq_getElem hi) he1

theorem fill_complete_mono {α : Type} (Ms : List (SourceModel α)) (k m : Nat) (hkm : k ≤ m)
    (h : ((fillStates Ms k).all fun e => e.result.isSome) = true) :
    ((fillStates Ms m).all fun e => e.result.isSome) = true := by
  rw [List.all_eq_true] at h ⊢
  intro e1 he1
  obtain ⟨i, hi, hget⟩ := List.mem_iff_getElem.1 he1
  have hik : i < (fillStates Ms k).length := by
    rw [fillStates_length]
    have h2 := hi
    rwa [fillStates_length] at h2
  have hks := h (fillStates Ms k)[i] (List.getElem_mem hik)
  obtain ⟨x, hx⟩ := Option.isSome_iff_exists.1 hks
  obtain ⟨e2, he2, hr2⟩ :=
    result_frozen Ms i x k (fillStates Ms k)[i] (List.getElem?_eq_getElem hik) hx m hkm
  rw [List.getElem?_eq_getElem hi] at he2
  cases he2
  rw [← hget, hr2]
  rfl

theorem poison_at_complete {α : Type} (Ms : List (SourceModel α)) (i k0 m : Nat)
    (e : FillEntry α) (hp : (fillStates Ms k0)[i]? = some e) (hpn : e.result = some none)
    (e1 : FillEntry α) (h1 : (fillStates Ms m)[i]? = some e1)
    (hs : e1.result.isSome = true) : e1.result = some none := by
  rcases le_total k0 m with h | h
  · obtain ⟨e2, he2, hr2⟩ := result_frozen Ms i none k0 e hp hpn m h
    rw [h1] at he2
    cases he2
    exact hr2
  · obtain ⟨x, hx⟩ := Option.isSome_iff_exists.1 hs
    obtain ⟨e2, he2, hr2⟩ := result_frozen Ms i x m e1 h1 hx k0 h
    rw [hp] at he2
    cases he2
    rw [hpn] at hr2
    cases hr2
    exact hx

theorem collectFillAux_none {α : Type} :
    ∀ (es : List (FillEntry α)) (i j : Nat) (e : FillEntry α),
      es[j]? = some e → e.result = some none → collectFillAux i es = none := by
  intro es
  induction es with
  | nil => intro i j e hj _; simp at hj
  | cons e0 es ih =>
    intro i j e hj hr
    cases j with
    | zero =>
      simp only [List.getElem?_cons_zero, Option.some.injEq] at hj
      subst hj
      simp [collectFillAux, hr]
    | succ j =>
      simp only [List.getElem?_cons_succ] at hj
      cases hres : e0.result with
      | none => simp [collectFillAux, hres]
      | some y =>
        cases y with
        | none => simp [collectFillAux, hres]
        | some v => simp [collectFillAux, hres, ih i.succ j e hj hr]

theorem zipAllPoll_fill_poisoned_complete {α : Type} (Ms : List (SourceModel α))
    (i k0 : Nat) (e : FillEntry α) (hp : (fillStates Ms k0)[i]? = some e)
    (hpn : e.result = some none) (j : Nat)
    (hc : ((fillStep Ms (fillStates Ms j)).all fun e1 => e1.result.isSome) = true) :
    zipAllPoll Ms (ZipAllState.fill (fillStates Ms j)) =
      (ZipAllState.filled [] [], PollNext.ready none) := by
  have hi : i < Ms.length := by
    have h2 := getElem?_some_lt hp
    rwa [fillStates_length] at h2
  have hi1 : i < (fillStates Ms (j + 1)).length := by
    rw [fillStates_length]
    exact hi
  have he1 : (fillStates Ms (j + 1))[i]? = some (fillStates Ms (j + 1))[i] :=
    List.getElem?_eq_getElem hi1
  have hs : (fillStates Ms (j + 1))[i].result.isSome = true := by
    have hstep : fillStep Ms (fillStates Ms j) = fillStates Ms (j + 1) := rfl
    rw [hstep] at hc
    exact (List.all_eq_true.1 hc) _ (List.getElem_mem hi1)
  have hpois : (fillStates Ms (j + 1))[i].result = some none :=
    poison_at_complete Ms i k0 (j + 1) e hp hpn _ he1 hs
  have hcol : collectFillAux 0 (fillStep Ms (fillStates Ms j)) = none :=
    collectFillAux_none _ 0 i _ he1 hpois
  simp [zipAllPoll, hc, hcol]

theorem runZipAll_fill_poisoned_emits_nothing {α : Type} (Ms : List (SourceModel α))
    (i k0 : Nat) (e : FillEntry α) (hp : (fillStates Ms k0)[i]? = some e)
    (hpn : e.result = some none) :
    ∀ fuel j, (runZipAll Ms fuel (ZipAllState.fill (fillStates Ms j))).1 = [] := by
  intro fuel
  induction fuel with
  | zero => intro j; rfl
  | succ fuel ih =>
    intro j
    by_cases hc : ((fillStep Ms (fillStates Ms j)).all fun e1 => e1.result.isSome) = true
    · have hpoll := zipAllPoll_fill_poisoned_complete Ms i k0 e hp hpn j hc
      rw [runZipAll, hpoll]
    · have hpoll : zipAllPoll Ms (ZipAllState.fill (fillStates Ms j)) =
          (ZipAllState.fill (fillStates Ms (j + 1)), PollNext.pending) := by
        simp [zipAllPoll, hc]
        rfl
      rw [runZipAll, hpoll]
      exact ih (j + 1)

theorem runZipAll_fill_poisoned_terminates {α : Type} (Ms : List (SourceModel α))
    (i k0 : Nat) (e : FillEntry α) (hp : (fillStates Ms k0)[i]? = some e)
    (hpn : e.result = some none) (k : Nat)
    (hcomp : ((fillStates Ms k).all fun e1 => e1.result.isSome) = true) :
    ∀ fuel j, k - j < fuel → runZipAll Ms fuel (ZipAllState.fill (fillStates Ms j)) =
      ([], true) := by
  intro fuel
  induction fuel with
  | zero => intro j h; omega
  | succ fuel ih =>
    intro j _
    by_cases hc : ((fillStep Ms (fillStates Ms j)).all fun e1 => e1.result.isSome) = true
    · have hpoll := zipAllPoll_fill_poisoned_complete Ms i k0 e hp hpn j hc
      rw [runZipAll, hpoll]
    · have hlt : j + 1 < k := by
        by_contra hge
        exact hc (fill_complete_mono Ms k (j + 1) (by omega) hcomp)
      have hpoll : zipAllPoll Ms (ZipAllState.fill (fillStates Ms j)) =
          (ZipAllState.fill (fillStates Ms (j + 1)), PollNext.pending) := by
        simp [zipAllPoll, hc]
        rfl
      rw [runZipAll, hpoll]
      exact ih (j + 1) (by omega)

theorem idxs_cons (e : Nat × Nat) (l : List (Nat × Nat)) : idxs (e :: l) = e.1 :: idxs l := rfl

theorem idxs_append (l1 l2 : List (Nat × Nat)) : idxs (l1 ++ l2) = idxs l1 ++ idxs l2 :=
  List.map_append _ _ _

theorem perm_snoc_to_cons (xs ys : List Nat) (a : Nat) :
    (xs ++ (ys ++ [a])).Perm (a :: (xs ++ ys)) := by
  have h1 : xs ++ (ys ++ [a]) = (xs ++ ys) ++ [a] := by rw [List.append_assoc]
  rw [h1]
  exact List.perm_append_comm

theorem lastProduced_succ_ready {α : Type} (M : SourceModel α) (c : Nat) (v : α)
    (h : M c = Tick.ready v) : lastProduced M (c + 1) = some v := by
  simp [lastProduced, h]

theorem lastProduced_succ_pending {α : Type} (M : SourceModel α) (c : Nat)
    (h : M c = Tick.pending) : lastProduced M (c + 1) = lastProduced M c := by
  simp [lastProduced, h]

theorem scanQueue_spec {α : Type} (Ms : List (SourceModel α)) (items : List α) :
    ∀ (q acc : List (Nat × Nat)) (cur : Nat → Nat),
      (∀ e ∈ q ++ acc, e.1 < items.length ∧ cur e.1 = e.2) →
      (idxs (q ++ acc)).Nodup →
      ItemsInv Ms items cur →
      ((∀ rest, scanQueue Ms q acc = ScanRes.pend rest →
        ∃ cur1, (∀ e ∈ rest, e.1 < items.length ∧ cur1 e.1 = e.2) ∧
          ItemsInv Ms items cur1 ∧ (idxs rest).Perm (idxs (q ++ acc)) ∧
          ∀ n, n ∉ idxs q → cur1 n = cur n) ∧
      (∀ i v te rest, scanQueue Ms q acc = ScanRes.found i v te rest →
        ∃ cur1, te = (i, cur1 i) ∧ i < items.length ∧
          (∀ e ∈ rest, e.1 < items.length ∧ cur1 e.1 = e.2) ∧
          ItemsInv Ms (items.set i v) cur1 ∧ (i :: idxs rest).Perm (idxs (q ++ acc)) ∧
          ∀ n, n ∉ idxs q → cur1 n = cur n) ∧
      (∀ rest, scanQueue Ms q acc = ScanRes.ended rest →
        ∃ cur1 i0, (∀ e ∈ rest, e.1 < items.length ∧ cur1 e.1 = e.2) ∧
          ItemsInv Ms items cur1 ∧ (i0 :: idxs rest).Perm (idxs (q ++ acc)) ∧
          ∀ n, n ∉ idxs q → cur1 n = cur n) ∧
      (scanQueue Ms q acc = ScanRes.empty → q = [] ∧ acc = [])) := by
  intro q
  induction q with
  | nil =>
    intro acc cur hmem hnd hit
    refine ⟨?_, ?_, ?_, ?_⟩
    · intro rest h
      rw [scanQueue] at h
      by_cases hacc : acc.isEmpty
      · simp [hacc] at h
      · rw [if_neg hacc] at h
        cases h
        exact ⟨cur, fun e he => hmem e (by simpa using he), hit, by simp, fun n _ => rfl⟩
    · intro i v te rest h
      rw [scanQueue] at h
      by_cases hacc : acc.isEmpty
      · simp [hacc] at h
      · simp [hacc] at h
    · intro rest h
      rw [scanQueue] at h
      by_cases hacc : acc.isEmpty
      · simp [hacc] at h
      · simp [hacc] at h
    · intro h
      rw [scanQueue] at h
      by_cases hacc : acc.isEmpty
      · exact ⟨rfl, List.isEmpty_iff.1 hacc⟩
      · simp [hacc] at h
  | cons hd q' ih =>
    obtain ⟨i, c⟩ := hd
    intro acc cur hmem hnd hit
    have hi : i < items.length := (hmem (i, c) (by simp)).1
    have hc : cur i = c := (hmem (i, c) (by simp)).2
    have hnotin : i ∉ idxs (q' ++ acc) := by
      rw [List.cons_append, idxs_cons] at hnd
      exact (List.nodup_cons.1 hnd).1
    have hnd' : (idxs (q' ++ acc)).Nodup := by
      rw [List.cons_append, idxs_cons] at hnd
      exact (List.nodup_cons.1 hnd).2
    have hid : idxs ((i, c) :: q' ++ acc) = i :: idxs (q' ++ acc) := by
      rw [List.cons_append, idxs_cons]
    cases hTick : srcAt Ms i c with
    | ready v =>
      have hsq : scanQueue Ms ((i, c) :: q') acc = ScanRes.found i v (i, c + 1) (q' ++ acc) := by
        rw [scanQueue, hTick]
      refine ⟨?_, ?_, ?_, ?_⟩
      · intro rest h
        rw [hsq] at h
        cases h
      · intro i1 v1 te rest h
        rw [hsq] at h
        cases h
        refine ⟨Function.update cur i (c + 1), ?_, hi, ?_, ?_, ?_, ?_⟩
        · rw [Function.update_same]
        · intro e he
          have hne : e.1 ≠ i := by
            intro heq
            exact hnotin (heq ▸ List.mem_map_of_mem Prod.fst he)
          rw [Function.update_noteq hne]
          exact hmem e (by rw [List.cons_append]; exact List.mem_cons_of_mem _ he)
        · intro j hj
          rw [List.length_set] at hj
          by_cases hji : j = i
          · subst hji
            rw [Function.update_same, lastProduced_succ_ready _ _ _ hTick,
              List.getElem?_set_self', List.getElem?_eq_getElem hj]
            rfl
          · rw [Function.update_noteq hji, List.getElem?_set_ne (fun heq => hji heq.symm)]
            exact hit j hj
        · rw [hid]
        · intro n hn
          have hni : n ≠ i := by
            intro heq
            exact hn (heq ▸ by simp [idxs_cons])
          rw [Function.update_noteq hni]
      · intro rest h
        rw [hsq] at h
        cases h
      · intro h
        rw [hsq] at h
        cases h
    | done =>
      have hsq : scanQueue Ms ((i, c) :: q') acc = ScanRes.ended (q' ++ acc) := by
        rw [scanQueue, hTick]
      refine ⟨?_, ?_, ?_, ?_⟩
      · intro rest h
        rw [hsq] at h
        cases h
      · intro i1 v1 te rest h
        rw [hsq] at h
        cases h
      · intro rest h
        rw [hsq] at h
        cases h
        refine ⟨cur, i, ?_, hit, ?_, fun n _ => rfl⟩
        · intro e he
          exact hmem e (by rw [List.cons_append]; exact List.mem_cons_of_mem _ he)
        · rw [hid]
      · intro h
        rw [hsq] at h
        cases h
    | pending =>
      have hsq : scanQueue Ms ((i, c) :: q') acc = scanQueue Ms q' (acc ++ [(i, c + 1)]) := by
        rw [scanQueue, hTick]
      have hmem1 : ∀ e ∈ q' ++ (acc ++ [(i, c + 1)]),
          e.1 < items.length ∧ Function.update cur i (c + 1) e.1 = e.2 := by
        intro e he
        rw [← List.append_assoc] at he
        rcases List.mem_append.1 he with he1 | he2
        · have hne : e.1 ≠ i := by
            intro heq
            exact hnotin (heq ▸ List.mem_map_of_mem Prod.fst he1)
          rw [Function.update_noteq hne]
          exact hmem e (by rw [List.cons_append]; exact List.mem_cons_of_mem _ he1)
        · rw [List.mem_singleton] at he2
          subst he2
          rw [Function.update_same]
          exact ⟨hi, rfl⟩
      have hperm1 : (idxs (q' ++ (acc ++ [(i, c + 1)]))).Perm (i :: idxs (q' ++ acc)) := by
        rw [idxs_append, idxs_append, idxs_cons, idxs_append]
        exact perm_snoc_to_cons _ _ _
      have hnd1 : (idxs (q' ++ (acc ++ [(i, c + 1)]))).Nodup :=
        hperm1.nodup_iff.2 (List.nodup_cons.2 ⟨hnotin, hnd'⟩)
      have hit1 : ItemsInv Ms items (Function.update cur i (c + 1)) := by
        intro j hj
        by_cases hji : j = i
        · subst hji
          rw [Function.update_same, lastProduced_succ_pending _ _ hTick, ← hc]
          exact hit j hj
        · rw [Function.update_noteq hji]
          exact hit j hj
      have iha := ih (acc ++ [(i, c + 1)]) (Function.update cur i (c + 1)) hmem1 hnd1 hit1
      have hframe : ∀ n, n ∉ idxs ((i, c) :: q') → ∀ cur2 : Nat → Nat,
          (∀ m, m ∉ idxs q' → cur2 m = Function.update cur i (c + 1) m) → cur2 n = cur n := by
        intro n hn cur2 hf
        rw [idxs_cons] at hn
        have hni : n ≠ i := fun heq => hn (heq ▸ List.mem_cons_self _ _)
        have hnq : n ∉ idxs q' := fun hq => hn (List.mem_cons_of_mem _ hq)
        rw [hf n hnq, Function.update_noteq hni]
      refine ⟨?_, ?_, ?_, ?_⟩
      · intro rest h
        rw [hsq] at h
        obtain ⟨cur2, hm2, hi2, hp2, hf2⟩ := iha.1 rest h
        refine ⟨cur2, hm2, hi2, ?_, fun n hn => hframe n hn cur2 hf2⟩
        rw [hid]
        exact hp2.trans hperm1
      · intro i1 v1 te rest h
        rw [hsq] at h
        obtain ⟨cur2, hte, hi1, hm2, hi2, hp2, hf2⟩ := iha.2.1 i1 v1 te rest h
        refine ⟨cur2, hte, hi1, hm2, hi2, ?_, fun n hn => hframe n hn cur2 hf2⟩
        rw [hid]
        exact hp2.trans hperm1
      · intro rest h
        rw [hsq] at h
        obtain ⟨cur2, i0, hm2, hi2, hp2, hf2⟩ := iha.2.2.1 rest h
        refine ⟨cur2, i0, hm2, hi2, ?_, fun n hn => hframe n hn cur2 hf2⟩
        rw [hid]
        exact hp2.trans hperm1
      · intro h
        rw [hsq] at h
        have h2 := (iha.2.2.2 h).2
        simp at h2

theorem drainLoop_spec {α : Type} (Ms : List (SourceModel α)) :
    ∀ (fuel : Nat) (items : List α) (q yielded : List (Nat × Nat)) (cur : Nat → Nat),
      q.length < fuel →
      (∀ e ∈ q ++ yielded, e.1 < items.length ∧ cur e.1 = e.2) →
      (idxs (q ++ yielded)).Nodup →
      ItemsInv Ms items cur →
      ∃ cur1,
        (drainLoop Ms fuel items q yielded).1.1.length = items.length ∧
        (∀ e ∈ (drainLoop Ms fuel items q yielded).1.2,
          e.1 < items.length ∧ cur1 e.1 = e.2) ∧
        (idxs (drainLoop Ms fuel items q yielded).1.2).Nodup ∧
        ItemsInv Ms (drainLoop Ms fuel items q yielded).1.1 cur1 ∧
        (∀ n ∈ idxs (drainLoop Ms fuel items q yielded).1.2, n ∈ idxs (q ++ yielded)) ∧
        (∀ n, n ∉ idxs q → cur1 n = cur n) := by
  intro fuel
  induction fuel with
  | zero => intro items q yielded cur hfuel; omega
  | succ fuel ihf =>
    intro items q yielded cur hfuel hmem hnd hit
    have hmemq : ∀ e ∈ q ++ ([] : List (Nat × Nat)), e.1 < items.length ∧ cur e.1 = e.2 := by
      intro e he
      rw [List.append_nil] at he
      exact hmem e (List.mem_append_left _ he)
    have hndq : (idxs (q ++ ([] : List (Nat × Nat)))).Nodup := by
      rw [List.append_nil]
      rw [idxs_append] at hnd
      exact hnd.of_append_left
    have hdisj : ∀ n, n ∈ idxs q → n ∈ idxs yielded → False := by
      rw [idxs_append] at hnd
      exact fun n h1 h2 => List.disjoint_of_nodup_append hnd h1 h2
    have hspec := scanQueue_spec Ms items q [] cur hmemq hndq hit
    cases hscan : scanQueue Ms q [] with
    | found i v te rest =>
      obtain ⟨cur1, hte, hi, hm1, hit1, hp1, hf1⟩ := hspec.2.1 i v te rest hscan
      have hp1' : (i :: idxs rest).Perm (idxs q) := by
        rw [List.append_nil] at hp1
        exact hp1
      have hred : drainLoop Ms (fuel + 1) items q yielded =
          drainLoop Ms fuel (items.set i v) rest (yielded ++ [te]) := by
        rw [drainLoop, hscan]
      have hlen : rest.length + 1 = q.length := by
        have h2 := hp1'.length_eq
        simpa [idxs] using h2
      have hmemrest_sub : ∀ n, n ∈ idxs rest → n ∈ idxs q := by
        intro n hn
        exact hp1'.mem_iff.1 (List.mem_cons_of_mem _ hn)
      have hmem2 : ∀ e ∈ rest ++ (yielded ++ [te]),
          e.1 < (items.set i v).length ∧ cur1 e.1 = e.2 := by
        intro e he
        rw [List.length_set]
        rcases List.mem_append.1 he with h1 | h2
        · exact hm1 e h1
        · rcases List.mem_append.1 h2 with h3 | h4
          · have hny : e.1 ∉ idxs q := by
              intro hq
              exact hdisj e.1 hq (List.mem_map_of_mem Prod.fst h3)
            rw [hf1 e.1 hny]
            exact hmem e (List.mem_append_right _ h3)
          · rw [List.mem_singleton] at h4
            subst h4
            rw [hte]
            exact ⟨hi, rfl⟩
      have hperm : (idxs (rest ++ (yielded ++ [te]))).Perm (idxs (q ++ yielded)) := by
        rw [idxs_append, idxs_append, idxs_append]
        have hte1 : idxs [te] = [i] := by rw [hte]; rfl
        rw [hte1]
        have h1 : (idxs rest ++ (idxs yielded ++ [i])).Perm
            (i :: (idxs rest ++ idxs yielded)) := perm_snoc_to_cons _ _ _
        have h2 : ((i :: idxs rest) ++ idxs yielded).Perm (idxs q ++ idxs yielded) :=
          hp1'.append_right _
        exact h1.trans h2
      have hnd2 : (idxs (rest ++ (yielded ++ [te]))).Nodup := by
        rw [idxs_append] at hnd
        exact hperm.nodup_iff.2 (by rw [idxs_append]; exact hnd)
      obtain ⟨cur2, hlen2, hm2, hnd2', hit2', hsub2, hf2⟩ :=
        ihf (items.set i v) rest (yielded ++ [te]) cur1 (by omega) hmem2 hnd2 hit1
      refine ⟨cur2, ?_, ?_, ?_, ?_, ?_, ?_⟩
      · rw [hred, hlen2, List.length_set]
      · intro e he
        rw [hred] at he
        have h2 := hm2 e he
        rwa [List.length_set] at h2
      · rw [hred]
        exact hnd2'
      · rw [hred]
        exact hit2'
      · intro n hn
        rw [hred] at hn
        exact hperm.mem_iff.1 (by rw [idxs_append] at *; exact hsub2 n hn)
      · intro n hn
        have hnr : n ∉ idxs rest := fun h2 => hn (hmemrest_sub n h2)
        rw [hf2 n hnr, hf1 n hn]
    | ended rest =>
      obtain ⟨cur1, i0, hm1, hit1, hp1, hf1⟩ := hspec.2.2.1 rest hscan
      have hp1' : (i0 :: idxs rest).Perm (idxs q) := by
        rw [List.append_nil] at hp1
        exact hp1
      have hred : drainLoop Ms (fuel + 1) items q yielded =
          drainLoop Ms fuel items rest yielded := by
        rw [drainLoop, hscan]
      have hlen : rest.length + 1 = q.length := by
        have h2 := hp1'.length_eq
        simpa [idxs] using h2
      have hmemrest_sub : ∀ n, n ∈ idxs rest → n ∈ idxs q := by
        intro n hn
        exact hp1'.mem_iff.1 (List.mem_cons_of_mem _ hn)
      have hmem2 : ∀ e ∈ rest ++ yielded, e.1 < items.length ∧ cur1 e.1 = e.2 := by
        intro e he
        rcases List.mem_append.1 he with h1 | h2
        · exact hm1 e h1
        · have hny : e.1 ∉ idxs q := by
            intro hq
            exact hdisj e.1 hq (List.mem_map_of_mem Prod.fst h2)
          rw [hf1 e.1 hny]
          exact hmem e (List.mem_append_right _ h2)
      have hsubperm : ∀ n, n ∈ idxs (rest ++ yielded) → n ∈ idxs (q ++ yielded) := by
        intro n hn
        rw [idxs_append] at hn ⊢
        rcases List.mem_append.1 hn with h1 | h2
        · exact List.mem_append_left _ (hmemrest_sub n h1)
        · exact List.mem_append_right _ h2
      have hnd2 : (idxs (rest ++ yielded)).Nodup := by
        have hperm2 : (idxs (rest ++ yielded)).Perm (idxs rest ++ idxs yielded) := by
          rw [idxs_append]
        have hbig : ((i0 :: idxs rest) ++ idxs yielded).Perm (idxs (q ++ yielded)) := by
          rw [idxs_append]
          exact hp1'.append_right _
        have hnd3 : ((i0 :: idxs rest) ++ idxs yielded).Nodup := hbig.nodup_iff.2 hnd
        rw [idxs_append]
        rw [List.cons_append] at hnd3
        exact (List.nodup_cons.1 hnd3).2
      obtain ⟨cur2, hlen2, hm2, hnd2', hit2', hsub2, hf2⟩ :=
        ihf items rest yielded cur1 (by omega) hmem2 hnd2 hit1
      refine ⟨cur2, ?_, ?_, ?_, ?_, ?_, ?_⟩
      · rw [hred, hlen2]
      · intro e he
        rw [hred] at he
        exact hm2 e he
      · rw [hred]
        exact hnd2'
      · rw [hred]
        exact hit2'
      · intro n hn
        rw [hred] at hn
        exact hsubperm n (hsub2 n hn)
      · intro n hn
        have hnr : n ∉ idxs rest := fun h2 => hn (hmemrest_sub n h2)
        rw [hf2 n hnr, hf1 n hn]
    | pend rest =>
      obtain ⟨cur1, hm1, hit1, hp1, hf1⟩ := hspec.1 rest hscan
      have hp1' : (idxs rest).Perm (idxs q) := by
        rw [List.append_nil] at hp1
        exact hp1
      have hmemrest_sub : ∀ n, n ∈ idxs rest → n ∈ idxs q := fun n hn => hp1'.mem_iff.1 hn
      have hq : (drainLoop Ms (fuel + 1) items q yielded).1 =
          (items, rest ++ yielded) ∧
          ((drainLoop Ms (fuel + 1) items q yielded).1.2 = rest ++ yielded) := by
        rw [drainLoop, hscan]
        by_cases hy : yielded.isEmpty
        · have hy2 : yielded = [] := List.isEmpty_iff.1 hy
          subst hy2
          simp
        · simp [hy]
      refine ⟨cur1, ?_, ?_, ?_, ?_, ?_, fun n hn => hf1 n hn⟩
      · rw [hq.1]
      · intro e he
        rw [hq.1] at he
        rcases List.mem_append.1 he with h1 | h2
        · exact hm1 e h1
        · have hny : e.1 ∉ idxs q := by
            intro hqn
            exact hdisj e.1 hqn (List.mem_map_of_mem Prod.fst h2)
          rw [hf1 e.1 hny]
          exact hmem e (List.mem_append_right _ h2)
      · rw [hq.1]
        have hbig : (idxs (rest ++ yielded)).Perm (idxs (q ++ yielded)) := by
          rw [idxs_append, idxs_append]
          exact hp1'.append_right _
        exact hbig.nodup_iff.2 hnd
      · rw [hq.1]
        exact hit1
      · intro n hn
        rw [hq.1] at hn
        rw [idxs_append] at hn ⊢
        rcases List.mem_append.1 hn with h1 | h2
        · exact List.mem_append_left _ (hmemrest_sub n h1)
        · exact List.mem_append_right _ h2
    | empty =>
      obtain ⟨hq0, -⟩ := hspec.2.2.2 hscan
      subst hq0
      have hq : (drainLoop Ms (fuel + 1) items [] yielded).1 = (items, yielded) := by
        rw [drainLoop, hscan]
        by_cases hy : yielded.isEmpty
        · have hy2 : yielded = [] := List.isEmpty_iff.1 hy
          subst hy2
          simp
        · simp [hy]
      refine ⟨cur, ?_, ?_, ?_, ?_, ?_, fun n _ => rfl⟩
      · rw [hq]
      · intro e he
        rw [hq] at he
        exact hmem e (List.mem_append_right _ he)
      · rw [hq]
        rw [idxs_append] at hnd
        exact hnd.of_append_right
      · rw [hq]
        exact hit
      · intro n hn
        rw [hq] at hn
        rw [idxs_append]
        exact List.mem_append_right _ hn

theorem lastProduced_succ_done {α : Type} (M : SourceModel α) (c : Nat)
    (h : M c = Tick.done) : lastProduced M (c + 1) = lastProduced M c := by
  simp [lastProduced, h]

theorem ofList_done_of_le {α : Type} (l : List (Option α)) (c : Nat) (h : l.length ≤ c) :
    ofList l c = Tick.done := by
  simp [ofList, List.getElem?_eq_none h]

theorem ofList_lt_of_ne_done {α : Type} (l : List (Option α)) (c : Nat)
    (h : ofList l c ≠ Tick.done) : c < l.length := by
  by_contra hc
  exact h (ofList_done_of_le l c (by omega))

theorem lastProduced_of_fuseDone {α : Type} (l : List (Option α)) (f : FuseState)
    (hf : FuseInv l f) (hd : f.isDone = true) :
    lastProduced (ofList l) f.cursor = lastProduced (ofList l) l.length := by
  rw [hf.2 hd]
  exact lastProduced_succ_done _ _ (ofList_done_of_le l l.length (le_refl _))

theorem SideInv_yielded_of_new {α : Type} {l : List (Option α)} {f : FuseState} {v : α}
    (h : SideInv l f (StreamState.new v)) : SideInv l f (StreamState.yielded v) :=
  ⟨h.1, by simpa [StreamState.val] using h.2⟩

theorem sideMeasure_yielded_lt_new {α : Type} (l : List (Option α)) (f : FuseState)
    (v w : α) : sideMeasure l f (StreamState.yielded v) < sideMeasure l f (StreamState.new w) := by
  simp [sideMeasure, StreamState.needsPoll]

theorem fuseMk_cursor (c : Nat) (b : Bool) : (⟨c, b⟩ : FuseState).cursor = c := rfl

theorem fuseMk_isDone (c : Nat) (b : Bool) : (⟨c, b⟩ : FuseState).isDone = b := rfl

theorem refreshSide_spec {α : Type} (l : List (Option α)) (f : FuseState) (st : StreamState α)
    (hs : SideInv l f st) :
    SideInv l (refreshSide (ofList l) f st).1 (refreshSide (ofList l) f st).2 ∧
    sideMeasure l (refreshSide (ofList l) f st).1 (refreshSide (ofList l) f st).2 ≤
      sideMeasure l f st ∧
    (st.needsPoll = true → f.isDone = false →
      sideMeasure l (refreshSide (ofList l) f st).1 (refreshSide (ofList l) f st).2 <
        sideMeasure l f st) ∧
    (∀ v, (refreshSide (ofList l) f st).2 = StreamState.yielded v →
      st = StreamState.yielded v) ∧
    ((refreshSide (ofList l) f st).2 = StreamState.nothing → st = StreamState.nothing) ∧
    (f.isDone = true → refreshSide (ofList l) f st = (f, st)) ∧
    (st.needsPoll = false → refreshSide (ofList l) f st = (f, st)) ∧
    (f.isDone = true → (refreshSide (ofList l) f st).1.isDone = true) := by
  by_cases hnp : st.needsPoll
  · by_cases hd : f.isDone
    · rw [refreshSide_of_done (ofList l) f st hd]
      exact ⟨hs, le_refl _, fun _ h2 => absurd hd (by simp [h2]), fun v h => h,
        fun h => h, fun _ => rfl, fun _ => rfl, fun _ => hd⟩
    · have hd' : f.isDone = false := by simpa using hd
      cases hM : ofList l f.cursor with
      | ready v =>
        have hr : refreshSide (ofList l) f st = (⟨f.cursor + 1, false⟩, StreamState.new v) := by
          simp [refreshSide, hnp, fusePoll, hd', hM]
        have hlt : f.cursor < l.length := ofList_lt_of_ne_done l f.cursor (by simp [hM])
        rw [hr]
        have e1 : sideMeasure l ⟨f.cursor + 1, false⟩ (StreamState.new v) =
            2 * (l.length + 1 - (f.cursor + 1)) + 1 := rfl
        have e2 : sideMeasure l f st =
            2 * (l.length + 1 - f.cursor) + (if st.needsPoll = true then 0 else 1) := rfl
        have e3 : (if true = true then (0 : Nat) else 1) = 0 := rfl
        refine ⟨⟨⟨?_, ?_⟩, ?_⟩, ?_, ?_, ?_, ?_, ?_, ?_, ?_⟩
        · intro _
          show f.cursor + 1 ≤ l.length
          omega
        · intro h
          cases h
        · rw [lastProduced_succ_ready _ _ _ hM]
          rfl
        · rw [e1, e2, hnp, e3]
          omega
        · intro _ _
          rw [e1, e2, hnp, e3]
          omega
        · intro w hw
          cases hw
        · intro hw
          cases hw
        · intro h2
          rw [h2] at hd'
          cases hd'
        · intro h2
          rw [h2] at hnp
          cases hnp
        · intro h2
          rw [h2] at hd'
          cases hd'
      | pending =>
        have hr : refreshSide (ofList l) f st = (⟨f.cursor + 1, false⟩, st) := by
          simp [refreshSide, hnp, fusePoll, hd', hM]
        have hlt : f.cursor < l.length := ofList_lt_of_ne_done l f.cursor (by simp [hM])
        rw [hr]
        have e1 : sideMeasure l ⟨f.cursor + 1, false⟩ st =
            2 * (l.length + 1 - (f.cursor + 1)) + (if st.needsPoll = true then 0 else 1) := rfl
        have e2 : sideMeasure l f st =
            2 * (l.length + 1 - f.cursor) + (if st.needsPoll = true then 0 else 1) := rfl
        refine ⟨⟨⟨?_, ?_⟩, ?_⟩, ?_, ?_, fun v h => h, fun h => h, ?_, ?_, ?_⟩
        · intro _
          show f.cursor + 1 ≤ l.length
          omega
        · intro h
          cases h
        · rw [lastProduced_succ_pending _ _ hM]
          exact hs.2
        · rw [e1, e2]
          omega
        · intro _ _
          rw [e1, e2]
          omega
        · intro h2
          rw [h2] at hd'
          cases hd'
        · intro h2
          rw [h2] at hnp
          cases hnp
        · intro h2
          rw [h2] at hd'
          cases hd'
      | done =>
        have hr : refreshSide (ofList l) f st = (⟨f.cursor + 1, true⟩, st) := by
          simp [refreshSide, hnp, fusePoll, hd', hM]
        have hle : f.cursor ≤ l.length := hs.1.1 hd'
        have heq : f.cursor = l.length := by
          by_contra hne
          have hlt : f.cursor < l.length := by omega
          have h2 : ofList l f.cursor ≠ Tick.done := by
            intro h3
            cases hl : l[f.cursor]? with
            | none =>
              rw [List.getElem?_eq_getElem hlt] at hl
              cases hl
            | some o =>
              rw [ofList] at h3
              rw [hl] at h3
              cases o <;> simp at h3
          exact h2 hM
        rw [hr]
        have e1 : sideMeasure l ⟨f.cursor + 1, true⟩ st =
            2 * (l.length + 1 - (f.cursor + 1)) + (if st.needsPoll = true then 0 else 1) := rfl
        have e2 : sideMeasure l f st =
            2 * (l.length + 1 - f.cursor) + (if st.needsPoll = true then 0 else 1) := rfl
        refine ⟨⟨⟨?_, ?_⟩, ?_⟩, ?_, ?_, fun v h => h, fun h => h, ?_, ?_, ?_⟩
        · intro h
          cases h
        · intro _
          show f.cursor + 1 = l.length + 1
          omega
        · rw [lastProduced_succ_done _ _ hM]
          exact hs.2
        · rw [e1, e2]
          omega
        · intro _ _
          rw [e1, e2]
          omega
        · intro h2
          rw [h2] at hd'
          cases hd'
        · intro h2
          rw [h2] at hnp
          cases hnp
        · intro _
          rfl
  · have hnp' : st.needsPoll = false := by simpa using hnp
    rw [refreshSide_not_needed (ofList l) f st hnp']
    exact ⟨hs, le_refl _, fun h _ => absurd hnp' (by simp [h]), fun v h => h,
      fun h => h, fun _ => rfl, fun _ => rfl, fun h => h⟩

theorem refreshSide_spec2 {α : Type} (l : List (Option α)) (f : FuseState)
    (st : StreamState α) (hs : SideInv l f st) (f1 : FuseState) (st1 : StreamState α)
    (hE : refreshSide (ofList l) f st = (f1, st1)) :
    SideInv l f1 st1 ∧
    sideMeasure l f1 st1 ≤ sideMeasure l f st ∧
    (st.needsPoll = true → f.isDone = false →
      sideMeasure l f1 st1 < sideMeasure l f st) ∧
    (∀ v, st1 = StreamState.yielded v → st = StreamState.yielded v) ∧
    (st1 = StreamState.nothing → st = StreamState.nothing) ∧
    (f.isDone = true → f1 = f ∧ st1 = st) ∧
    (st.needsPoll = false → f1 = f ∧ st1 = st) ∧
    (f.isDone = true → f1.isDone = true) := by
  obtain ⟨h1, h2, h3, h4, h5, h6, h7, h8⟩ := refreshSide_spec l f st hs
  rw [hE] at h1 h2 h3 h4 h5 h8
  refine ⟨h1, h2, h3, h4, h5, ?_, ?_, h8⟩
  · intro hd
    have h9 := (h6 hd).symm.trans hE
    exact ⟨(Prod.mk.injEq _ _ _ _ ▸ h9).1.symm, (Prod.mk.injEq _ _ _ _ ▸ h9).2.symm⟩
  · intro hnp
    have h9 := (h7 hnp).symm.trans hE
    exact ⟨(Prod.mk.injEq _ _ _ _ ▸ h9).1.symm, (Prod.mk.injEq _ _ _ _ ▸ h9).2.symm⟩

theorem needsPoll_false_new {α : Type} (st : StreamState α)
    (h : st.needsPoll = false) : ∃ v, st = StreamState.new v := by
  cases st with
  | nothing => cases h
  | new v => exact ⟨v, rfl⟩
  | yielded v => cases h

theorem zl_pending_measure {α β : Type} {la : List (Option α)} {lb : List (Option β)}
    (s : ZipLatestState α β) (aF1 bF1 : FuseState) (aS1 : StreamState α) (bS1 : StreamState β)
    (ha2 : sideMeasure la aF1 aS1 ≤ sideMeasure la s.aFuse s.state)
    (ha3 : s.state.needsPoll = true → s.aFuse.isDone = false →
      sideMeasure la aF1 aS1 < sideMeasure la s.aFuse s.state)
    (ha5 : aS1 = StreamState.nothing → s.state = StreamState.nothing)
    (ha6 : s.aFuse.isDone = true → aF1 = s.aFuse ∧ aS1 = s.state)
    (ha7 : s.state.needsPoll = false → aF1 = s.aFuse ∧ aS1 = s.state)
    (ha8 : s.aFuse.isDone = true → aF1.isDone = true)
    (hb2 : sideMeasure lb bF1 bS1 ≤ sideMeasure lb s.bFuse s.otherState)
    (hb3 : s.otherState.needsPoll = true → s.bFuse.isDone = false →
      sideMeasure lb bF1 bS1 < sideMeasure lb s.bFuse s.otherState)
    (hb5 : bS1 = StreamState.nothing → s.otherState = StreamState.nothing)
    (hb6 : s.bFuse.isDone = true → bF1 = s.bFuse ∧ bS1 = s.otherState)
    (hb7 : s.otherState.needsPoll = false → bF1 = s.bFuse ∧ bS1 = s.otherState)
    (hb8 : s.bFuse.isDone = true → bF1.isDone = true)
    (hc1 : ¬(aS1.isNothing = true ∧ aF1.isDone = true))
    (hc2 : ¬(bS1.isNothing = true ∧ bF1.isDone = true))
    (hc3 : ¬(aF1.isDone = true ∧ bF1.isDone = true))
    (hne1 : ∀ va vb, ¬(aS1 = StreamState.new va ∧ bS1 = StreamState.new vb))
    (hne2 : ∀ va vb, ¬(aS1 = StreamState.new va ∧ bS1 = StreamState.yielded vb))
    (hne3 : ∀ va vb, ¬(aS1 = StreamState.yielded va ∧ bS1 = StreamState.new vb)) :
    sideMeasure la aF1 aS1 + sideMeasure lb bF1 bS1 <
      sideMeasure la s.aFuse s.state + sideMeasure lb s.bFuse s.otherState := by
  have hdi : aF1.isDone = false ∨ bF1.isDone = false := by
    by_cases h1 : aF1.isDone = true
    · by_cases h2 : bF1.isDone = true
      · exact absurd ⟨h1, h2⟩ hc3
      · exact Or.inr (by simpa using h2)
    · exact Or.inl (by simpa using h1)
  rcases hdi with hfa | hfb
  · have hsa : s.aFuse.isDone = false := by
      by_cases h2 : s.aFuse.isDone = true
      · rw [ha8 h2] at hfa
        cases hfa
      · simpa using h2
    by_cases hnpa : s.state.needsPoll = true
    · have := ha3 hnpa hsa
      omega
    · have hnpa2 : s.state.needsPoll = false := by simpa using hnpa
      obtain ⟨hfa7, hsa7⟩ := ha7 hnpa2
      obtain ⟨va, hva⟩ := needsPoll_false_new _ hnpa2
      have haS1 : aS1 = StreamState.new va := by rw [hsa7, hva]
      have hbS1 : bS1 = StreamState.nothing := by
        cases hbs : bS1 with
        | nothing => rfl
        | new w => exact absurd ⟨haS1, hbs⟩ (hne1 va w)
        | yielded w => exact absurd ⟨haS1, hbs⟩ (hne2 va w)
      have hsb : s.otherState = StreamState.nothing := hb5 hbS1
      have hfb2 : s.bFuse.isDone = false := by
        by_cases h2 : s.bFuse.isDone = true
        · obtain ⟨hbf, -⟩ := hb6 h2
          exact absurd ⟨by rw [hbS1]; rfl, by rw [hbf]; exact h2⟩ hc2
        · simpa using h2
      have hnpb : s.otherState.needsPoll = true := by rw [hsb]; rfl
      have := hb3 hnpb hfb2
      omega
  · have hsb : s.bFuse.isDone = false := by
      by_cases h2 : s.bFuse.isDone = true
      · rw [hb8 h2] at hfb
        cases hfb
      · simpa using h2
    by_cases hnpb : s.otherState.needsPoll = true
    · have := hb3 hnpb hsb
      omega
    · have hnpb2 : s.otherState.needsPoll = false := by simpa using hnpb
      obtain ⟨hfb7, hsb7⟩ := hb7 hnpb2
      obtain ⟨vb, hvb⟩ := needsPoll_false_new _ hnpb2
      have hbS1 : bS1 = StreamState.new vb := by rw [hsb7, hvb]
      have haS1 : aS1 = StreamState.nothing := by
        cases has : aS1 with
        | nothing => rfl
        | new w => exact absurd ⟨has, hbS1⟩ (hne1 w vb)
        | yielded w => exact absurd ⟨has, hbS1⟩ (hne3 w vb)
      have hsa2 : s.state = StreamState.nothing := ha5 haS1
      have hfa2 : s.aFuse.isDone = false := by
        by_cases h2 : s.aFuse.isDone = true
        · obtain ⟨haf, -⟩ := ha6 h2
          exact absurd ⟨by rw [haS1]; rfl, by rw [haf]; exact h2⟩ hc1
        · simpa using h2
      have hnpa : s.state.needsPoll = true := by rw [hsa2]; rfl
      have := ha3 hnpa hfa2
      omega

theorem zl_step_emit {α β : Type} (la : List (Option α)) (lb : List (Option β))
    (s s1 : ZipLatestState α β) (x : α × β) (hInv : ZLInv la lb s)
    (h : zipLatestPoll (ofList la) (ofList lb) s = (s1, PollNext.ready (some x))) :
    ZLInv la lb s1 ∧ zlMeasure la lb s1 < zlMeasure la lb s ∧
    s1.state = StreamState.yielded x.1 ∧ s1.otherState = StreamState.yielded x.2 := by
  rcases hEa : refreshSide (ofList la) s.aFuse s.state with ⟨aF1, aS1⟩
  rcases hEb : refreshSide (ofList lb) s.bFuse s.otherState with ⟨bF1, bS1⟩
  obtain ⟨ha1, ha2, ha3, ha4, ha5, ha6, ha7, ha8⟩ :=
    refreshSide_spec2 la s.aFuse s.state hInv.1 aF1 aS1 hEa
  obtain ⟨hb1, hb2, hb3, hb4, hb5, hb6, hb7, hb8⟩ :=
    refreshSide_spec2 lb s.bFuse s.otherState hInv.2 bF1 bS1 hEb
  have hpoll : zipLatestPoll (ofList la) (ofList lb) s = combinePhase aF1 bF1 aS1 bS1 := by
    simp only [zipLatestPoll]
    rw [hEa, hEb]
  rw [hpoll] at h
  have hms : zlMeasure la lb s =
      sideMeasure la s.aFuse s.state + sideMeasure lb s.bFuse s.otherState := rfl
  cases aS1 with
  | new a =>
    cases bS1 with
    | new b =>
      simp only [combinePhase] at h
      rw [Prod.mk.injEq] at h
      obtain ⟨hs1, hx⟩ := h
      simp only [PollNext.ready.injEq, Option.some.injEq] at hx
      subst hs1
      subst hx
      refine ⟨⟨SideInv_yielded_of_new ha1, SideInv_yielded_of_new hb1⟩, ?_, rfl, rfl⟩
      have em : zlMeasure la lb ⟨aF1, bF1, StreamState.yielded a, StreamState.yielded b⟩ =
          sideMeasure la aF1 (StreamState.yielded a) +
            sideMeasure lb bF1 (StreamState.yielded b) := rfl
      rw [em, hms]
      have l1 := sideMeasure_yielded_lt_new la aF1 a a
      have l2 := sideMeasure_yielded_lt_new lb bF1 b b
      omega
    | yielded b =>
      simp only [combinePhase] at h
      rw [Prod.mk.injEq] at h
      obtain ⟨hs1, hx⟩ := h
      simp only [PollNext.ready.injEq, Option.some.injEq] at hx
      subst hs1
      subst hx
      refine ⟨⟨SideInv_yielded_of_new ha1, hb1⟩, ?_, rfl, rfl⟩
      have em : zlMeasure la lb ⟨aF1, bF1, StreamState.yielded a, StreamState.yielded b⟩ =
          sideMeasure la aF1 (StreamState.yielded a) +
            sideMeasure lb bF1 (StreamState.yielded b) := rfl
      rw [em, hms]
      have l1 := sideMeasure_yielded_lt_new la aF1 a a
      omega
    | nothing =>
      simp only [combinePhase] at h
      split_ifs at h <;> simp at h
  | yielded a =>
    cases bS1 with
    | new b =>
      simp only [combinePhase] at h
      rw [Prod.mk.injEq] at h
      obtain ⟨hs1, hx⟩ := h
      simp only [PollNext.ready.injEq, Option.some.injEq] at hx
      subst hs1
      subst hx
      refine ⟨⟨ha1, SideInv_yielded_of_new hb1⟩, ?_, rfl, rfl⟩
      have em : zlMeasure la lb ⟨aF1, bF1, StreamState.yielded a, StreamState.yielded b⟩ =
          sideMeasure la aF1 (StreamState.yielded a) +
            sideMeasure lb bF1 (StreamState.yielded b) := rfl
      rw [em, hms]
      have l2 := sideMeasure_yielded_lt_new lb bF1 b b
      omega
    | nothing =>
      simp only [combinePhase] at h
      split_ifs at h <;> simp at h
    | yielded b =>
      simp only [combinePhase] at h
      split_ifs at h <;> simp at h
  | nothing =>
    cases bS1 <;> simp only [combinePhase] at h <;> split_ifs at h <;> simp at h

theorem zl_step_pending {α β : Type} (la : List (Option α)) (lb : List (Option β))
    (s s1 : ZipLatestState α β) (hInv : ZLInv la lb s)
    (h : zipLatestPoll (ofList la) (ofList lb) s = (s1, PollNext.pending)) :
    ZLInv la lb s1 ∧ zlMeasure la lb s1 < zlMeasure la lb s ∧
    (∀ v, s1.state = StreamState.yielded v → s.state = StreamState.yielded v) ∧
    (∀ v, s1.otherState = StreamState.yielded v → s.otherState = StreamState.yielded v) := by
  rcases hEa : refreshSide (ofList la) s.aFuse s.state with ⟨aF1, aS1⟩
  rcases hEb : refreshSide (ofList lb) s.bFuse s.otherState with ⟨bF1, bS1⟩
  obtain ⟨ha1, ha2, ha3, ha4, ha5, ha6, ha7, ha8⟩ :=
    refreshSide_spec2 la s.aFuse s.state hInv.1 aF1 aS1 hEa
  obtain ⟨hb1, hb2, hb3, hb4, hb5, hb6, hb7, hb8⟩ :=
    refreshSide_spec2 lb s.bFuse s.otherState hInv.2 bF1 bS1 hEb
  have hpoll : zipLatestPoll (ofList la) (ofList lb) s = combinePhase aF1 bF1 aS1 bS1 := by
    simp only [zipLatestPoll]
    rw [hEa, hEb]
  rw [hpoll] at h
  have hms : zlMeasure la lb s =
      sideMeasure la s.aFuse s.state + sideMeasure lb s.bFuse s.otherState := rfl
  cases aS1 with
  | nothing =>
    cases bS1 with
    | nothing =>
      simp only [combinePhase] at h
      split_ifs at h with hc1 hc2 hc3
      · exact absurd (congrArg Prod.snd h) (by simp)
      · exact absurd (congrArg Prod.snd h) (by simp)
      · exact absurd (congrArg Prod.snd h) (by simp)
      · rw [Prod.mk.injEq] at h
        obtain ⟨hs1, -⟩ := h
        subst hs1
        simp only [Bool.and_eq_true] at hc1 hc2 hc3
        refine ⟨⟨ha1, hb1⟩, ?_, ha4, hb4⟩
        rw [show zlMeasure la lb ⟨aF1, bF1, StreamState.nothing, StreamState.nothing⟩ =
          sideMeasure la aF1 StreamState.nothing +
            sideMeasure lb bF1 StreamState.nothing from rfl, hms]
        exact zl_pending_measure s aF1 bF1 _ _ ha2 ha3 ha5 ha6 ha7 ha8 hb2 hb3 hb5 hb6
          hb7 hb8 hc1 hc2 hc3 (fun va vb hc => by cases hc.1) (fun va vb hc => by cases hc.1)
          (fun va vb hc => by cases hc.1)
    | new w =>
      simp only [combinePhase] at h
      split_ifs at h with hc1 hc2 hc3
      · exact absurd (congrArg Prod.snd h) (by simp)
      · exact absurd (congrArg Prod.snd h) (by simp)
      · exact absurd (congrArg Prod.snd h) (by simp)
      · rw [Prod.mk.injEq] at h
        obtain ⟨hs1, -⟩ := h
        subst hs1
        simp only [Bool.and_eq_true] at hc1 hc2 hc3
        refine ⟨⟨ha1, hb1⟩, ?_, ha4, hb4⟩
        rw [show zlMeasure la lb ⟨aF1, bF1, StreamState.nothing, StreamState.new w⟩ =
          sideMeasure la aF1 StreamState.nothing +
            sideMeasure lb bF1 (StreamState.new w) from rfl, hms]
        exact zl_pending_measure s aF1 bF1 _ _ ha2 ha3 ha5 ha6 ha7 ha8 hb2 hb3 hb5 hb6
          hb7 hb8 hc1 hc2 hc3 (fun va vb hc => by cases hc.1) (fun va vb hc => by cases hc.1)
          (fun va vb hc => by cases hc.1)
    | yielded w =>
      simp only [combinePhase] at h
      split_ifs at h with hc1 hc2 hc3
      · exact absurd (congrArg Prod.snd h) (by simp)
      · exact absurd (congrArg Prod.snd h) (by simp)
      · exact absurd (congrArg Prod.snd h) (by simp)
      · rw [Prod.mk.injEq] at h
        obtain ⟨hs1, -⟩ := h
        subst hs1
        simp only [Bool.and_eq_true] at hc1 hc2 hc3
        refine ⟨⟨ha1, hb1⟩, ?_, ha4, hb4⟩
        rw [show zlMeasure la lb ⟨aF1, bF1, StreamState.nothing, StreamState.yielded w⟩ =
          sideMeasure la aF1 StreamState.nothing +
            sideMeasure lb bF1 (StreamState.yielded w) from rfl, hms]
        exact zl_pending_measure s aF1 bF1 _ _ ha2 ha3 ha5 ha6 ha7 ha8 hb2 hb3 hb5 hb6
          hb7 hb8 hc1 hc2 hc3 (fun va vb hc => by cases hc.1) (fun va vb hc => by cases hc.1)
          (fun va vb hc => by cases hc.1)
  | new a =>
    cases bS1 with
    | nothing =>
      simp only [combinePhase] at h
      split_ifs at h with hc1 hc2 hc3
      · exact absurd (congrArg Prod.snd h) (by simp)
      · exact absurd (congrArg Prod.snd h) (by simp)
      · exact absurd (congrArg Prod.snd h) (by simp)
      · rw [Prod.mk.injEq] at h
        obtain ⟨hs1, -⟩ := h
        subst hs1
        simp only [Bool.and_eq_true] at hc1 hc2 hc3
        refine ⟨⟨ha1, hb1⟩, ?_, ha4, hb4⟩
        rw [show zlMeasure la lb ⟨aF1, bF1, StreamState.new a, StreamState.nothing⟩ =
          sideMeasure la aF1 (StreamState.new a) +
            sideMeasure lb bF1 StreamState.nothing from rfl, hms]
        exact zl_pending_measure s aF1 bF1 _ _ ha2 ha3 ha5 ha6 ha7 ha8 hb2 hb3 hb5 hb6
          hb7 hb8 hc1 hc2 hc3 (fun va vb hc => by cases hc.2) (fun va vb hc => by cases hc.2)
          (fun va vb hc => by cases hc.1)
    | new w => simp only [combinePhase] at h; exact absurd (congrArg Prod.snd h) (by simp)
    | yielded w => simp only [combinePhase] at h; exact absurd (congrArg Prod.snd h) (by simp)
  | yielded a =>
    cases bS1 with
    | new w => simp only [combinePhase] at h; exact absurd (congrArg Prod.snd h) (by simp)
    | nothing =>
      simp only [combinePhase] at h
      split_ifs at h with hc1 hc2 hc3
      · exact absurd (congrArg Prod.snd h) (by simp)
      · exact absurd (congrArg Prod.snd h) (by simp)
      · exact absurd (congrArg Prod.snd h) (by simp)
      · rw [Prod.mk.injEq] at h
        obtain ⟨hs1, -⟩ := h
        subst hs1
        simp only [Bool.and_eq_true] at hc1 hc2 hc3
        refine ⟨⟨ha1, hb1⟩, ?_, ha4, hb4⟩
        rw [show zlMeasure la lb ⟨aF1, bF1, StreamState.yielded a, StreamState.nothing⟩ =
          sideMeasure la aF1 (StreamState.yielded a) +
            sideMeasure lb bF1 StreamState.nothing from rfl, hms]
        exact zl_pending_measure s aF1 bF1 _ _ ha2 ha3 ha5 ha6 ha7 ha8 hb2 hb3 hb5 hb6
          hb7 hb8 hc1 hc2 hc3 (fun va vb hc => by cases hc.1) (fun va vb hc => by cases hc.1)
          (fun va vb hc => by cases hc.2)
    | yielded w =>
      simp only [combinePhase] at h
      split_ifs at h with hc1 hc2 hc3
      · exact absurd (congrArg Prod.snd h) (by simp)
      · exact absurd (congrArg Prod.snd h) (by simp)
      · exact absurd (congrArg Prod.snd h) (by simp)
      · rw [Prod.mk.injEq] at h
        obtain ⟨hs1, -⟩ := h
        subst hs1
        simp only [Bool.and_eq_true] at hc1 hc2 hc3
        refine ⟨⟨ha1, hb1⟩, ?_, ha4, hb4⟩
        rw [show zlMeasure la lb ⟨aF1, bF1, StreamState.yielded a, StreamState.yielded w⟩ =
          sideMeasure la aF1 (StreamState.yielded a) +
            sideMeasure lb bF1 (StreamState.yielded w) from rfl, hms]
        exact zl_pending_measure s aF1 bF1 _ _ ha2 ha3 ha5 ha6 ha7 ha8 hb2 hb3 hb5 hb6
          hb7 hb8 hc1 hc2 hc3 (fun va vb hc => by cases hc.1) (fun va vb hc => by cases hc.1)
          (fun va vb hc => by cases hc.2)

theorem zl_step_none {α β : Type} (la : List (Option α)) (lb : List (Option β))
    (s s1 : ZipLatestState α β) (hInv : ZLInv la lb s)
    (h : zipLatestPoll (ofList la) (ofList lb) s = (s1, PollNext.ready none)) :
    lastProduced (ofList la) la.length = none ∨
    lastProduced (ofList lb) lb.length = none ∨
    (∃ va vb, s.state = StreamState.yielded va ∧ s.otherState = StreamState.yielded vb ∧
      lastProduced (ofList la) la.length = some va ∧
      lastProduced (ofList lb) lb.length = some vb) := by
  rcases hEa : refreshSide (ofList la) s.aFuse s.state with ⟨aF1, aS1⟩
  rcases hEb : refreshSide (ofList lb) s.bFuse s.otherState with ⟨bF1, bS1⟩
  obtain ⟨ha1, ha2, ha3, ha4, ha5, ha6, ha7, ha8⟩ :=
    refreshSide_spec2 la s.aFuse s.state hInv.1 aF1 aS1 hEa
  obtain ⟨hb1, hb2, hb3, hb4, hb5, hb6, hb7, hb8⟩ :=
    refreshSide_spec2 lb s.bFuse s.otherState hInv.2 bF1 bS1 hEb
  have hpoll : zipLatestPoll (ofList la) (ofList lb) s = combinePhase aF1 bF1 aS1 bS1 := by
    simp only [zipLatestPoll]
    rw [hEa, hEb]
  rw [hpoll] at h
  cases aS1 with
  | nothing =>
    cases bS1 with
    | nothing =>
      simp only [combinePhase] at h
      split_ifs at h with hc1 hc2 hc3
      · simp only [Bool.and_eq_true] at hc1
        exact Or.inl (by rw [← lastProduced_of_fuseDone la aF1 ha1.1 hc1.2]; exact ha1.2)
      · simp only [Bool.and_eq_true] at hc2
        exact Or.inr (Or.inl
          (by rw [← lastProduced_of_fuseDone lb bF1 hb1.1 hc2.2]; exact hb1.2))
      · simp only [Bool.and_eq_true] at hc1 hc3
        exact absurd ⟨rfl, hc3.1⟩ hc1
      · exact absurd (congrArg Prod.snd h) (by simp)
    | new w =>
      simp only [combinePhase] at h
      split_ifs at h with hc1 hc2 hc3
      · simp only [Bool.and_eq_true] at hc1
        exact Or.inl (by rw [← lastProduced_of_fuseDone la aF1 ha1.1 hc1.2]; exact ha1.2)
      · simp [StreamState.isNothing] at hc2
      · simp only [Bool.and_eq_true] at hc1 hc3
        exact absurd ⟨rfl, hc3.1⟩ hc1
      · exact absurd (congrArg Prod.snd h) (by simp)
    | yielded w =>
      simp only [combinePhase] at h
      split_ifs at h with hc1 hc2 hc3
      · simp only [Bool.and_eq_true] at hc1
        exact Or.inl (by rw [← lastProduced_of_fuseDone la aF1 ha1.1 hc1.2]; exact ha1.2)
      · simp [StreamState.isNothing] at hc2
      · simp only [Bool.and_eq_true] at hc1 hc3
        exact absurd ⟨rfl, hc3.1⟩ hc1
      · exact absurd (congrArg Prod.snd h) (by simp)
  | new a =>
    cases bS1 with
    | nothing =>
      simp only [combinePhase] at h
      split_ifs at h with hc1 hc2 hc3
      · simp [StreamState.isNothing] at hc1
      · simp only [Bool.and_eq_true] at hc2
        exact Or.inr (Or.inl
          (by rw [← lastProduced_of_fuseDone lb bF1 hb1.1 hc2.2]; exact hb1.2))
      · simp only [Bool.and_eq_true] at hc2 hc3
        exact absurd ⟨rfl, hc3.2⟩ hc2
      · exact absurd (congrArg Prod.snd h) (by simp)
    | new w => simp only [combinePhase] at h; exact absurd (congrArg Prod.snd h) (by simp)
    | yielded w => simp only [combinePhase] at h; exact absurd (congrArg Prod.snd h) (by simp)
  | yielded a =>
    cases bS1 with
    | new w => simp only [combinePhase] at h; exact absurd (congrArg Prod.snd h) (by simp)
    | nothing =>
      simp only [combinePhase] at h
      split_ifs at h with hc1 hc2 hc3
      · simp [StreamState.isNothing] at hc1
      · simp only [Bool.and_eq_true] at hc2
        exact Or.inr (Or.inl
          (by rw [← lastProduced_of_fuseDone lb bF1 hb1.1 hc2.2]; exact hb1.2))
      · simp only [Bool.and_eq_true] at hc2 hc3
        exact absurd ⟨rfl, hc3.2⟩ hc2
      · exact absurd (congrArg Prod.snd h) (by simp)
    | yielded w =>
      simp only [combinePhase] at h
      split_ifs at h with hc1 hc2 hc3
      · simp [StreamState.isNothing] at hc1
      · simp [StreamState.isNothing] at hc2
      · simp only [Bool.and_eq_true] at hc3
        refine Or.inr (Or.inr ⟨a, w, ha4 a rfl, hb4 w rfl, ?_, ?_⟩)
        · rw [← lastProduced_of_fuseDone la aF1 ha1.1 hc3.1]
          exact ha1.2
        · rw [← lastProduced_of_fuseDone lb bF1 hb1.1 hc3.2]
          exact hb1.2
      · exact absurd (congrArg Prod.snd h) (by simp)

theorem zipLatestRun_terminates {α β : Type} (la : List (Option α)) (lb : List (Option β)) :
    ∀ fuel (s : ZipLatestState α β), ZLInv la lb s → zlMeasure la lb s < fuel →
      (zipLatestRun (ofList la) (ofList lb) fuel s).2 = true := by
  intro fuel
  induction fuel with
  | zero => intro s _ hm; omega
  | succ fuel ih =>
    intro s hInv hm
    rcases hp : zipLatestPoll (ofList la) (ofList lb) s with ⟨s1, r⟩
    cases r with
    | pending =>
      obtain ⟨hI, hlt, -, -⟩ := zl_step_pending la lb s s1 hInv hp
      rw [zipLatestRun, hp]
      exact ih s1 hI (by omega)
    | ready x =>
      cases x with
      | none => rw [zipLatestRun, hp]
      | some v =>
        obtain ⟨hI, hlt, -, -⟩ := zl_step_emit la lb s s1 v hInv hp
        rw [zipLatestRun, hp]
        exact ih s1 hI (by omega)

theorem zipLatestRun_last {α β : Type} (la : List (Option α)) (lb : List (Option β))
    (va : α) (vb : β) (hva : lastProduced (ofList la) la.length = some va)
    (hvb : lastProduced (ofList lb) lb.length = some vb) :
    ∀ fuel (s : ZipLatestState α β) (out : List (α × β)), ZLInv la lb s →
      zipLatestRun (ofList la) (ofList lb) fuel s = (out, true) →
      out.getLast? = some (va, vb) ∨
      (out = [] ∧ s.state = StreamState.yielded va ∧
        s.otherState = StreamState.yielded vb) := by
  intro fuel
  induction fuel with
  | zero =>
    intro s out _ hrun
    rw [zipLatestRun] at hrun
    exact absurd (congrArg Prod.snd hrun) (by simp)
  | succ fuel ih =>
    intro s out hInv hrun
    rcases hp : zipLatestPoll (ofList la) (ofList lb) s with ⟨s1, r⟩
    cases r with
    | pending =>
      obtain ⟨hI, -, hsa, hsb⟩ := zl_step_pending la lb s s1 hInv hp
      rw [zipLatestRun, hp] at hrun
      rcases ih s1 out hI hrun with hl | ⟨ho, h1, h2⟩
      · exact Or.inl hl
      · exact Or.inr ⟨ho, hsa va h1, hsb vb h2⟩
    | ready x =>
      cases x with
      | none =>
        rw [zipLatestRun, hp] at hrun
        have hout : out = [] := (congrArg Prod.fst hrun).symm
        rcases zl_step_none la lb s s1 hInv hp with h1 | h1 | ⟨va1, vb1, hs1, hs2, hp1, hp2⟩
        · rw [hva] at h1
          cases h1
        · rw [hvb] at h1
          cases h1
        · injection hva.symm.trans hp1 with hva1
          injection hvb.symm.trans hp2 with hvb1
          subst hva1
          subst hvb1
          exact Or.inr ⟨hout, hs1, hs2⟩
      | some v =>
        obtain ⟨hI, -, hy1, hy2⟩ := zl_step_emit la lb s s1 v hInv hp
        rw [zipLatestRun, hp] at hrun
        have hout : out = v :: (zipLatestRun (ofList la) (ofList lb) fuel s1).1 :=
          (congrArg Prod.fst hrun).symm
        have ht : (zipLatestRun (ofList la) (ofList lb) fuel s1).2 = true :=
          congrArg Prod.snd hrun
        have hrun1 : zipLatestRun (ofList la) (ofList lb) fuel s1 =
            ((zipLatestRun (ofList la) (ofList lb) fuel s1).1, true) := by
          rw [← ht]
        rcases ih s1 (zipLatestRun (ofList la) (ofList lb) fuel s1).1 hI hrun1 with
          hl | ⟨ho, h1, h2⟩
        · left
          rw [hout]
          cases ho1 : (zipLatestRun (ofList la) (ofList lb) fuel s1).1 with
          | nil =>
            rw [ho1] at hl
            simp at hl
          | cons y ys =>
            rw [ho1] at hl
            rw [List.getLast?_cons_cons]
            exact hl
        · left
          injection hy1.symm.trans h1 with hv1
          injection hy2.symm.trans h2 with hv2
          have hv : v = (va, vb) := Prod.ext hv1 hv2
          rw [hout, ho, hv]
          rfl

/-- C6: for any two ended schedules that each produced at least one value, the
pairwise combinator run from the initial state terminates (within an explicit
fuel bound), and the last item it emits pairs the last value produced by A
with the last value produced by B. -/
theorem zip_latest_terminates_pairs_last {α β : Type} (la : List (Option α))
    (lb : List (Option β)) (va : α) (vb : β)
    (hva : lastProduced (ofList la) la.length = some va)
    (hvb : lastProduced (ofList lb) lb.length = some vb) :
    ∃ out, zipLatestRun (ofList la) (ofList lb) (2 * (la.length + lb.length) + 5)
        ZipLatestState.init = (out, true) ∧ out.getLast? = some (va, vb) := by
  have hInv : ZLInv la lb (ZipLatestState.init : ZipLatestState α β) := by
    constructor <;> exact ⟨⟨fun _ => Nat.zero_le _, fun h => by cases h⟩, rfl⟩
  have hm : zlMeasure la lb (ZipLatestState.init : ZipLatestState α β) <
      2 * (la.length + lb.length) + 5 := by
    have e : zlMeasure la lb (ZipLatestState.init : ZipLatestState α β) =
        2 * (la.length + 1 - 0) + 0 + (2 * (lb.length + 1 - 0) + 0) := rfl
    rw [e]
    omega
  have ht := zipLatestRun_terminates la lb (2 * (la.length + lb.length) + 5)
    ZipLatestState.init hInv hm
  have hrun : zipLatestRun (ofList la) (ofList lb) (2 * (la.length + lb.length) + 5)
      ZipLatestState.init =
      ((zipLatestRun (ofList la) (ofList lb) (2 * (la.length + lb.length) + 5)
        ZipLatestState.init).1, true) := by
    rw [← ht]
  rcases zipLatestRun_last la lb va vb hva hvb _ ZipLatestState.init _ hInv hrun with
    hl | ⟨-, h1, -⟩
  · exact ⟨_, hrun, hl⟩
  · cases h1

theorem zip_latest_terminates_pairs_last_witness :
    ∃ out, zipLatestRun (ofList [some 0, none, some 1, none, none, some 2])
        (ofList [none, some 10, some 11, some 12, none, none, some 13])
        (2 * (([some 0, none, some 1, none, none, some 2] : List (Option Nat)).length +
          ([none, some 10, some 11, some 12, none, none, some 13] :
            List (Option Nat)).length) + 5)
        ZipLatestState.init = (out, true) ∧ out.getLast? = some (2, 13) :=
  zip_latest_terminates_pairs_last _ _ 2 13 (by decide) (by decide)

/-- C3: in the N-ary steady state, one poll preserves the invariant that
`items[i]` holds the most recent value source `i` produced (relative to a
per-source poll-count assignment `cur`, updated to `cur1`), for every index
`i` of `items` — ended sources keep their frozen slot and poll count; the
length of `items` never changes; a source index absent from the pending set is
never re-added; and sources outside the polled set keep their poll count. -/
theorem zip_latest_all_filled_invariant {α : Type} (Ms : List (SourceModel α))
    (items : List α) (q : List (Nat × Nat)) (cur : Nat → Nat)
    (hInv : InvFilled Ms items q cur) :
    ∃ items1 q1 res cur1,
      zipAllPoll Ms (ZipAllState.filled items q) = (ZipAllState.filled items1 q1, res) ∧
      items1.length = items.length ∧
      InvFilled Ms items1 q1 cur1 ∧
      (∀ n ∈ idxs q1, n ∈ idxs q) ∧
      (∀ n, n ∉ idxs q → cur1 n = cur n) := by
  obtain ⟨⟨hnd, hent⟩, hit⟩ := hInv
  have hmem : ∀ e ∈ q ++ ([] : List (Nat × Nat)), e.1 < items.length ∧ cur e.1 = e.2 := by
    intro e he
    rw [List.append_nil] at he
    exact hent e he
  have hnd0 : (idxs (q ++ ([] : List (Nat × Nat)))).Nodup := by
    rw [List.append_nil]
    exact hnd
  obtain ⟨cur1, hlen, hm, hndq, hit1, hsub, hframe⟩ :=
    drainLoop_spec Ms (q.length + 1) items q [] cur (by omega) hmem hnd0 hit
  refine ⟨(drainLoop Ms (q.length + 1) items q []).1.1,
    (drainLoop Ms (q.length + 1) items q []).1.2,
    (drainLoop Ms (q.length + 1) items q []).2, cur1, rfl, hlen, ⟨⟨hndq, ?_⟩, hit1⟩,
    ?_, hframe⟩
  · intro e he
    obtain ⟨h1, h2⟩ := hm e he
    exact ⟨by rw [hlen]; exact h1, h2⟩
  · intro n hn
    have h2 := hsub n hn
    rwa [List.append_nil] at h2

theorem zip_latest_all_filled_invariant_witness :
    ∃ items1 q1 res cur1,
      zipAllPoll [ofList [some (5 : Nat)]] (ZipAllState.filled [5] [(0, 1)]) =
        (ZipAllState.filled items1 q1, res) ∧
      items1.length = ([5] : List Nat).length ∧
      InvFilled [ofList [some (5 : Nat)]] items1 q1 cur1 ∧
      (∀ n ∈ idxs q1, n ∈ idxs [(0, 1)]) ∧
      (∀ n, n ∉ idxs [(0, 1)] → cur1 n = (fun _ => 1) n) :=
  zip_latest_all_filled_invariant [ofList [some (5 : Nat)]] [5] [(0, 1)] (fun _ => 1)
    ⟨⟨by simp [idxs], by
        intro e he
        rw [List.mem_singleton] at he
        subst he
        exact ⟨by simp, rfl⟩⟩, by
      intro i hi
      have h0 : i = 0 := by simpa using hi
      subst h0
      decide⟩

/-- C4: if any source of the N-ary combinator ends during the fill phase
without having produced a value, the combinator emits no items at all over its
entire lifetime, and it returns end-of-stream as soon as the fill phase
completes (which covers infinite other sources, since they complete the fill
with their first value). -/
theorem zip_latest_all_fill_poisoning {α : Type} (Ms : List (SourceModel α))
    (i k0 : Nat) (e : FillEntry α) (hp : (fillStates Ms k0)[i]? = some e)
    (hpn : e.result = some none) :
    (∀ fuel, (runZipAll Ms fuel (initZipAll Ms)).1 = []) ∧
    (∀ k, ((fillStates Ms k).all fun e1 => e1.result.isSome) = true →
      ∀ fuel, k < fuel → runZipAll Ms fuel (initZipAll Ms) = ([], true)) := by
  constructor
  · intro fuel
    exact runZipAll_fill_poisoned_emits_nothing Ms i k0 e hp hpn fuel 0
  · intro k hk fuel hf
    exact runZipAll_fill_poisoned_terminates Ms i k0 e hp hpn k hk fuel 0 (by omega)

theorem zip_latest_all_fill_poisoning_witness :
    (runZipAll [ofList ([] : List (Option Nat)), repeatSrc 7] 5
      (initZipAll [ofList [], repeatSrc 7])).1 = [] ∧
    runZipAll [ofList ([] : List (Option Nat)), repeatSrc 7] 5
      (initZipAll [ofList [], repeatSrc 7]) = ([], true) :=
  have h := zip_latest_all_fill_poisoning [ofList ([] : List (Option Nat)), repeatSrc 7]
    0 1 ⟨1, some none⟩ (by decide) rfl
  ⟨h.1 5, h.2 1 (by decide) 5 (by decide)⟩

theorem zip_latest_poll_after_termination_ready_none_witness :
    (zipLatestPoll (ofList [some (1 : Nat)]) (ofList [some (2 : Nat)])
        ⟨⟨2, true⟩, ⟨2, true⟩, StreamState.nothing, StreamState.nothing⟩).2 =
      PollNext.ready none :=
  zip_latest_poll_after_termination_ready_none _ _
    ⟨⟨1, false⟩, ⟨1, false⟩, StreamState.yielded 1, StreamState.yielded 2⟩ _ (by decide)

end Futuristic
